import Mathlib

/-!
Verification development for the Week-Linker plugin (`src/main.ts`).

The program text is embedded shallowly: strings are `List Char`, JavaScript
string operations are modelled by executable Lean functions, moment.js dates
are their millisecond values (`Int`), and the moment.js operations that the
code delegates to the external library (`add`, `subtract`, `startOf`, `endOf`,
`format`) are fields of an explicit `MomentOps` parameter.  The date parser
`DateLogicService.getDailyNoteDateFromPath` applied to a basename is likewise
passed in as a function `parseDate : Str → Option Int` wherever the block
reconciler consults it, since its interior uses the moment.js parser.
-/

namespace WeekLinker

/-- Program strings are modelled as lists of characters. -/
abbrev Str := List Char

/-- Coercion from Lean string literals into the model's string type. -/
def str (s : String) : Str := s.data

/-- JavaScript whitespace (`\s`), restricted to the ASCII range that the
inputs of this development use. -/
def isWsChar (c : Char) : Bool :=
  c = ' ' || c = '\t' || c = '\n' || c = '\r' || c = '\x0b' || c = '\x0c'

/-- JavaScript `String.prototype.trim`. -/
def jsTrim (s : Str) : Str :=
  ((s.dropWhile isWsChar).reverse.dropWhile isWsChar).reverse

/-- JavaScript `String.prototype.trimEnd`. -/
def jsTrimEnd (s : Str) : Str :=
  (s.reverse.dropWhile isWsChar).reverse

/-- JavaScript `String.prototype.split` with a single-character separator. -/
def splitOnChar (sep : Char) : Str → List Str
  | [] => [[]]
  | c :: r =>
    if c = sep then
      [] :: splitOnChar sep r
    else
      match splitOnChar sep r with
      | [] => [[c]]
      | p :: ps => (c :: p) :: ps

/-- Worker for `jsSplitWs`; the fuel argument is an upper bound on the
remaining length, present only to make the recursion structural. -/
def jsSplitWsGo : Nat → Str → List Str
  | 0, _ => [[]]
  | _, [] => [[]]
  | fuel + 1, c :: r =>
    if isWsChar c then
      [] :: jsSplitWsGo fuel (r.dropWhile isWsChar)
    else
      match jsSplitWsGo fuel r with
      | [] => [[c]]
      | p :: ps => (c :: p) :: ps

/-- JavaScript `String.prototype.split(/\s+/)`: maximal whitespace runs
separate the pieces; a leading or trailing run contributes an empty piece. -/
def jsSplitWs (t : Str) : List Str := jsSplitWsGo t.length t

/-- Numeric value of a decimal digit run. -/
def decVal (ds : Str) : Nat :=
  ds.foldl (fun a c => a * 10 + (c.toNat - '0'.toNat)) 0

/-- Numeric value of a hexadecimal digit run. -/
def hexVal (ds : Str) : Nat :=
  ds.foldl (fun a c =>
    a * 16 +
      (if c.isDigit then c.toNat - '0'.toNat
       else if 'a' ≤ c && c ≤ 'f' then c.toNat - 'a'.toNat + 10
       else c.toNat - 'A'.toNat + 10)) 0

/-- Hexadecimal digit test. -/
def isHexDigit (c : Char) : Bool :=
  c.isDigit || ('a' ≤ c && c ≤ 'f') || ('A' ≤ c && c ≤ 'F')

/-- JavaScript `parseInt(s)` with the radix argument omitted: leading
whitespace is skipped, an optional sign is read, a `0x`/`0X` prefix selects
base 16, and the longest digit prefix is converted; no digits give `NaN`,
modelled as `none`. -/
def jsParseInt (s : Str) : Option Int :=
  let s1 := s.dropWhile isWsChar
  let signAndRest : Int × Str :=
    match s1 with
    | '-' :: r => (-1, r)
    | '+' :: r => (1, r)
    | s2 => (1, s2)
  let sign := signAndRest.1
  match signAndRest.2 with
  | '0' :: 'x' :: r =>
    let ds := r.takeWhile isHexDigit
    if ds.isEmpty then none else some (sign * (hexVal ds : Int))
  | '0' :: 'X' :: r =>
    let ds := r.takeWhile isHexDigit
    if ds.isEmpty then none else some (sign * (hexVal ds : Int))
  | s2 =>
    let ds := s2.takeWhile (·.isDigit)
    if ds.isEmpty then none else some (sign * (decVal ds : Int))

/-- Worker for `replaceAllSub`; the fuel argument is an upper bound on the
remaining length, present only to make the recursion structural. -/
def replaceAllGo (pat repl : Str) : Nat → Str → Str
  | 0, t => t
  | _, [] => []
  | fuel + 1, c :: rest =>
    if ¬pat.isEmpty ∧ pat.isPrefixOf (c :: rest) then
      repl ++ replaceAllGo pat repl fuel ((c :: rest).drop pat.length)
    else
      c :: replaceAllGo pat repl fuel rest

/-- Global literal replacement, the meaning of
`text.replace(/escaped-literal/g, repl)`: scan left to right, replace each
non-overlapping occurrence, and continue after the replaced segment.
Scope: the replacement is spliced in literally; JavaScript dollar-sequence
expansion inside the replacement is not modelled, and every statement of
this development that pins a rendered line restricts the basename to
`GoodChar` characters, which exclude the dollar sign. -/
def replaceAllSub (pat repl t : Str) : Str := replaceAllGo pat repl t.length t

/-- The line-ending pass `content.replace(/\r\n/g, '\n')`. -/
def replaceCRLF (t : Str) : Str := replaceAllSub (str "\r\n") (str "\n") t

/-- The normalization applied before the final diff in both reconciliation
paths: `content.replace(/\r\n/g, '\n').trimEnd() + '\n'`
(`src/main.ts` lines 505-506 and 570-571). -/
def normalizeContent (t : Str) : Str := jsTrimEnd (replaceCRLF t) ++ ['\n']

/-- JavaScript `s.split('\n')[0]`. -/
def firstLineOf (s : Str) : Str := s.takeWhile (· ≠ '\n')

/-- Substring occurrence test, the meaning of `text.includes(sub)`. -/
def hasSub (pat : Str) : Str → Bool
  | [] => pat.isEmpty
  | c :: r => pat.isPrefixOf (c :: r) || hasSub pat r

/-!
### Token formatter (`formatDateWithCustomTokens`, `src/main.ts` lines 54-82)

Moment objects are reduced to their millisecond values; the four mutating
operations and the final `format` call are the fields of `MomentOps`, the
interface the code uses from the external moment.js library.
-/
/-- The moment.js operations used by `formatDateWithCustomTokens`. -/
structure MomentOps where
  add : Int → Int → Str → Int
  subtract : Int → Int → Str → Int
  startOf : Int → Str → Int
  endOf : Int → Str → Int
  format : Int → Str → Str

/-- One iteration of the loop over `parts[i]` (`src/main.ts` lines 61-77):
split on `=`, trim, and apply the recognized operation, silently skipping
everything else. -/
def applyPart (M : MomentOps) (d : Int) (part : Str) : Int :=
  let kv := (splitOnChar '=' part).map jsTrim
  let operation := kv.headD []
  match kv.get? 1 with
  | none => d
  | some param =>
    if param.isEmpty then d
    else
      let paramParts := jsSplitWs param
      let numVal := jsParseInt (paramParts.headD [])
      let unitOrArg :=
        if paramParts.length > 1 then paramParts.getD 1 [] else paramParts.headD []
      if operation = str "add" ∧ numVal.isSome ∧ ¬unitOrArg.isEmpty then
        M.add d (numVal.getD 0) unitOrArg
      else if operation = str "subtract" ∧ numVal.isSome ∧ ¬unitOrArg.isEmpty then
        M.subtract d (numVal.getD 0) unitOrArg
      else if operation = str "startOf" ∧ ¬unitOrArg.isEmpty then
        M.startOf d unitOrArg
      else if operation = str "endOf" ∧ ¬unitOrArg.isEmpty then
        M.endOf d unitOrArg
      else d

/-- Expansion of one matched `{...}`-doubled placeholder body
(`src/main.ts` lines 56-80): the first comma-separated piece is the moment
format token, the rest are chained operations applied to a clone of the
date. -/
def expandTok (M : MomentOps) (d : Int) (tokenExpression : Str) : Str :=
  let parts := (splitOnChar ',' tokenExpression).map jsTrim
  let momentToken := parts.headD []
  let tempDate := parts.tail.foldl (applyPart M) d
  M.format tempDate momentToken

/-- Attempt to match the regex `\x7b\x7b([^\x7d]+)\x7d\x7d` immediately after an
opening double brace: a nonempty run of non-closing-brace characters must be
followed by a closing double brace. -/
def captureTok (rest : Str) : Option (Str × Str) :=
  match rest.dropWhile (· ≠ '}') with
  | '}' :: '}' :: r2 =>
    if (rest.takeWhile (· ≠ '}')).isEmpty then none
    else some (rest.takeWhile (· ≠ '}'), r2)
  | _ => none

/-- The scanner of `formatString.replace(/\x7b\x7b([^\x7d]+)\x7d\x7d/g, ...)`:
at each position try the placeholder pattern; on success emit the expansion
and continue after the match, otherwise emit the character and move on.  The
fuel argument is an upper bound on the remaining length, present only to
make the recursion structural. -/
def fmtGo (M : MomentOps) (d : Int) : Nat → Str → Str
  | 0, t => t
  | _, [] => []
  | fuel + 1, c :: rest =>
    if c = '\x7b' then
      match rest with
      | c2 :: rest2 =>
        if c2 = '\x7b' then
          match captureTok rest2 with
          | some tr => expandTok M d tr.1 ++ fmtGo M d fuel tr.2
          | none => c :: fmtGo M d fuel (c2 :: rest2)
        else c :: fmtGo M d fuel rest
      | [] => c :: fmtGo M d fuel rest
    else c :: fmtGo M d fuel rest

/-- The token formatter `formatDateWithCustomTokens(formatString, date)`
(`src/main.ts` lines 54-82). -/
def formatDateWithCustomTokens (M : MomentOps) (formatString : Str) (date : Int) : Str :=
  fmtGo M date formatString.length formatString

/-!
### Strict-parsing heuristic (`DateLogicService.getDailyNoteDateFromPath`,
`src/main.ts` lines 282-306)
-/
/-- JavaScript word character (`\w`), i.e. `[A-Za-z0-9_]`. -/
def jsIsWordChar (c : Char) : Bool := c.isAlphanum || c = '_'

/-- The test `/^[YMD\W]+$/.test(this.settings.dailyNoteFormat)`
(`src/main.ts` line 303): nonempty, and every character is `Y`, `M`, `D`,
or a non-word character. -/
def useStrictParsing (format : Str) : Bool :=
  !format.isEmpty && format.all (fun c => c = 'Y' || c = 'M' || c = 'D' || !jsIsWordChar c)

/-- The date classifier on a basename with no filename regex configured
(`src/main.ts` lines 282-306, `dailyNoteFilenameRegex = ""` branch): the
basename itself is the date text, and the external moment.js parser
`momentParse text format strict` is consulted with the heuristic strictness
flag.  The regex-configured branch runs a JavaScript `RegExp` and is outside
this embedding. -/
def getDailyNoteDateFromPath (momentParse : Str → Str → Bool → Option Int)
    (dailyNoteFormat : Str) (fileBasename : Str) : Option Int :=
  if fileBasename.isEmpty then none
  else momentParse fileBasename dailyNoteFormat (useStrictParsing dailyNoteFormat)

/-- Characters that the specification's strictness criterion accepts as
"date-token characters"; `Y`, `M` and `D` are date tokens under any reading
of the specification, and the disagreement exhibited below is independent of
how large this set is taken to be. -/
def isDateTokenChar (c : Char) : Bool := c = 'Y' || c = 'M' || c = 'D'

/-- The strictness criterion as the claim states it: the format consists
solely of date-token characters and non-alphanumeric separators.  This
definition follows the specification's words and exists only to be compared
against `useStrictParsing`, which is translated from the source. -/
def strictPerClaim (format : Str) : Bool :=
  !format.isEmpty && format.all (fun c => isDateTokenChar c || !c.isAlphanum)

/-!
### Locating the managed region

`addOrUpdateLinkInWeeklyNote` and `removeLinkFromWeeklyNote` both split the
document with
`new RegExp("^([\s\S]*?)(START)\n?([\s\S]*?)\n?(END)([\s\S]*)$", "m")`
where the delimiters are regex-escaped, hence literal (`src/main.ts`
lines 394-396 and 526-528).  The lazy first group makes the match use the
first completable occurrence of the start delimiter; the lazy third group
together with the greedy optional newlines searches forward for the end
delimiter, preferring at each trial point to consume one preceding newline.
`splitFirst`, `searchEnd` and `findBlock` implement exactly that backtracking
order.
-/
/-- Split a string at the first occurrence of a literal pattern, returning
the text before and after the occurrence. -/
def splitFirst (pat : Str) : Str → Option (Str × Str)
  | [] => if pat.isEmpty then some ([], []) else none
  | c :: r =>
    if pat.isPrefixOf (c :: r) then some ([], (c :: r).drop pat.length)
    else (splitFirst pat r).map (fun p => (c :: p.1, p.2))

/-- Search for the end delimiter as the third and fourth regex groups do:
at each position, first try to match `END` just after a newline (the greedy
`\n?` consuming it), then at the position itself; otherwise the character
joins the region body.  Returns the region body and the text after the end
delimiter. -/
def searchEnd (END : Str) : Str → Option (Str × Str)
  | [] => if END.isEmpty then some ([], []) else none
  | c :: r =>
    if c = '\n' ∧ END.isPrefixOf r then some ([], r.drop END.length)
    else if END.isPrefixOf (c :: r) then some ([], (c :: r).drop END.length)
    else (searchEnd END r).map (fun p => (c :: p.1, p.2))

/-- The block-splitting regex: returns `(before, regionBody, after)` when the
document has a managed region.  After the start delimiter the greedy `\n?`
consumes one newline if present; if no end delimiter can be found from there
the engine backtracks and retries with the newline as part of the body. -/
def findBlock (START END text : Str) : Option (Str × Str × Str) :=
  match splitFirst START text with
  | none => none
  | some (before, rest0) =>
    let found :=
      match rest0 with
      | c :: rest1 =>
        if c = '\n' then
          match searchEnd END rest1 with
          | some p => some p
          | none => searchEnd END rest0
        else searchEnd END rest0
      | [] => searchEnd END rest0
    found.map (fun p => (before, p.1, p.2))

/-!
### Link extraction

`dailyLinkExtractionRegex = /!\[\[([^|\]]+?)(\.md)?([|\]][^\]]*)?\]\]/g`
(`src/main.ts` line 339).  `tryLink` attempts one match at a position in the
regex engine's backtracking order: the lazy first group grows one character
at a time; for each candidate capture the optional `.md` group is tried
greedily, then the optional alias group, then the closing `]]`.
-/
/-- The final literal `]]` of the link-extraction regex with the alias group
absent. -/
def finishNoAlias : Str → Option Str
  | c1 :: c2 :: r4 => if c1 = ']' ∧ c2 = ']' then some r4 else none
  | _ => none

/-- Match the tail `([|\]][^\]]*)?\]\]`: the alias group, if it starts here,
consumes `|` or `]` and then a maximal run of non-`]` characters, after which
`]]` must follow (the greedy run cannot usefully backtrack, since shortening
it puts a non-`]` character where `]]` is required); if that fails the group
is empty and `]]` must follow directly. -/
def finishAfterMd : Str → Option Str
  | [] => none
  | c :: r2 =>
    if c = '|' ∨ c = ']' then
      match r2.dropWhile (· ≠ ']') with
      | c1 :: c2 :: r4 =>
        if c1 = ']' ∧ c2 = ']' then some r4 else finishNoAlias (c :: r2)
      | _ => finishNoAlias (c :: r2)
    else finishNoAlias (c :: r2)

/-- Match the tail after a candidate capture: the optional `.md` group is
tried greedily, then the rest of the pattern; on failure the group is
dropped and the rest of the pattern is retried. -/
def tryFinish (r : Str) : Option Str :=
  match r with
  | c1 :: c2 :: c3 :: r2 =>
    if c1 = '.' ∧ c2 = 'm' ∧ c3 = 'd' then
      match finishAfterMd r2 with
      | some r' => some r'
      | none => finishAfterMd r
    else finishAfterMd r
  | _ => finishAfterMd r

/-- Grow the lazy capture group `([^|\]]+?)` one character at a time; `acc`
is the capture so far, reversed.  At each size the rest of the pattern is
tried before the group grows. -/
def tryGroup1 (acc : Str) : Str → Option (Str × Str)
  | [] => none
  | c :: rest =>
    if c = '|' ∨ c = ']' then none
    else
      match tryFinish rest with
      | some r' => some ((c :: acc).reverse, r')
      | none => tryGroup1 (c :: acc) rest

/-- Attempt one match of the link-extraction regex at the current position,
returning the captured basename and the text after the whole match. -/
def tryLink : Str → Option (Str × Str)
  | c1 :: c2 :: c3 :: rest =>
    if c1 = '!' ∧ c2 = '[' ∧ c3 = '[' then tryGroup1 [] rest else none
  | _ => none

/-- Worker for `extractLinks`; the fuel argument is an upper bound on the
remaining length, present only to make the recursion structural. -/
def extractGo : Nat → Str → List Str
  | 0, _ => []
  | _, [] => []
  | fuel + 1, c :: rest =>
    match tryLink (c :: rest) with
    | some p => p.1 :: extractGo fuel p.2
    | none => extractGo fuel rest

/-- The `while ((linkMatch = regex.exec(block)) !== null)` loop
(`src/main.ts` lines 412-423 and 538-547): collect the captured basenames of
successive matches, the engine advancing one position when no match starts
at the current one. -/
def extractLinks (t : Str) : List Str := extractGo t.length t

/-!
### The block reconciler
(`VaultInteractionService`, `src/main.ts` lines 335-577)

The vault is reduced to the single weekly note the call addresses: its state
is `Option Str` (`none` when the file does not exist).  The folder-shape
guards of lines 360-371 (a file standing where the folder should be, the
note path naming a folder) concern the surrounding filesystem and are not
modelled.  `parseDate` stands for
`dateLogicService.getDailyNoteDateFromPath(basename, basename)`.
-/
/-- The persisted settings consulted by the reconciler. -/
structure Settings where
  weeklyNoteHeadingFormat : Str
  weeklyNoteLinkFormat : Str
  ensureWeeklyNoteHeadingExists : Bool
  weeklyNoteLinksSectionHeading : Str
  linksStartDelimiter : Str
  linksEndDelimiter : Str

/-- JavaScript `Map.prototype.set` on an insertion-ordered association list
with distinct keys: an existing key keeps its position and gets the new
value, a new key is appended. -/
def mapSet (m : List (Str × Int)) (k : Str) (v : Int) : List (Str × Int) :=
  if m.any (fun p => p.1 = k) then
    m.map (fun p => if p.1 = k then (k, v) else p)
  else m ++ [(k, v)]

/-- The loop filling `existingBasenamesMap` (`src/main.ts` lines 410-424):
every extracted basename is keyed with its re-parsed date, or with
`moment(0)` — millisecond value `0` — when parsing fails. -/
def buildEntries (parseDate : Str → Option Int) (body : Str) : List (Str × Int) :=
  (extractLinks body).foldl (fun m b => mapSet m b ((parseDate b).getD 0)) []

/-- The corresponding loop of `removeLinkFromWeeklyNote` (`src/main.ts`
lines 538-547), which skips the basename being removed. -/
def buildEntriesSkipping (parseDate : Str → Option Int) (nameToRemove : Str)
    (body : Str) : List (Str × Int) :=
  (extractLinks body).foldl
    (fun m b =>
      if b = nameToRemove then m else mapSet m b ((parseDate b).getD 0)) []

/-- Insert an entry into an already-sorted list, after all entries whose
date is less than or equal to its own. -/
def insertEntry (x : Str × Int) : List (Str × Int) → List (Str × Int)
  | [] => [x]
  | y :: ys => if y.2 ≤ x.2 then y :: insertEntry x ys else x :: y :: ys

/-- `Array.from(map.entries()).sort(([,a],[,b]) => a.valueOf() - b.valueOf())`
(`src/main.ts` lines 429-430): JavaScript `Array.prototype.sort` is a stable
ascending sort, modelled by stable insertion sort. -/
def sortEntries (m : List (Str × Int)) : List (Str × Int) :=
  m.foldl (fun acc x => insertEntry x acc) []

/-- One rendered link line (`src/main.ts` lines 433-437): the basename is
substituted into the link template and the result is run through the token
formatter with that entry's own date. -/
def renderLine (M : MomentOps) (s : Settings) (entries : List (Str × Int))
    (fallbackDate : Int) (basename : Str) : Str :=
  let dateForThisLink :=
    ((entries.find? (fun p => p.1 = basename)).map Prod.snd).getD fallbackDate
  let linkLine := replaceAllSub (str "\x7b\x7bbasename\x7d\x7d") basename
    s.weeklyNoteLinkFormat
  formatDateWithCustomTokens M linkLine dateForThisLink

/-- Index of the first `'\n'`, the meaning of `indexOf('\n')`. -/
def findNl : Str → Option Nat
  | [] => none
  | c :: r => if c = '\n' then some 0 else (findNl r).map (· + 1)

/-- Index of the first line terminator (`'\n'` or `'\r'`); positions directly
after one are the multiline-anchor positions of a JavaScript regex. -/
def findTermin : Str → Option Nat
  | [] => none
  | c :: r => if c = '\n' ∨ c = '\r' then some 0 else (findTermin r).map (· + 1)

/-- The search performed by
`new RegExp("^" + escaped(X) + "(\r?\n|$)", "m")` (`src/main.ts`
lines 473-476): at each multiline anchor position, the literal `X` must be
followed by `\r\n`, by `\n`, or by the end of the text; the result is the
offset just after the whole match, the insertion point used by the code.
Scope: the multiline `$` match directly before a lone `\r` (a document
using bare carriage returns as line endings) is not modelled; no statement
of this development constrains the insertion point of such a document. -/
def sectionFindAux (X : Str) : Nat → Str → Nat → Option Nat
  | 0, _, _ => none
  | fuel + 1, text, off =>
    let here : Option Nat :=
      if X.isPrefixOf text then
        match text.drop X.length with
        | '\r' :: '\n' :: _ => some (off + X.length + 2)
        | '\n' :: _ => some (off + X.length + 1)
        | [] => some (off + X.length)
        | _ => none
      else none
    match here with
    | some q => some q
    | none =>
      match findTermin text with
      | none => none
      | some i => sectionFindAux X fuel (text.drop (i + 1)) (off + i + 1)

/-- Locate the configured section heading as a whole line. -/
def sectionFind (X : Str) (text : Str) : Option Nat :=
  sectionFindAux X (text.length + 1) text 0

/-- Outcome of `addOrUpdateLinkInWeeklyNote`: the note's content after the
call, the returned boolean, whether any `vault.create`/`vault.modify`
happened, and whether the call stopped at the unconfigured-delimiters
guard (the `ConfigError` report of the specification). -/
structure UpsertResult where
  doc : Option Str
  ret : Bool
  wrote : Bool
  configError : Bool

/-- Outcome of `removeLinkFromWeeklyNote` (the source returns `void`). -/
structure RemoveResult where
  doc : Option Str
  wrote : Bool
  configError : Bool

/-- `getWeeklyNoteHeading` (`src/main.ts` lines 324-332) without its
try/catch: the embedded formatter is total, so the fallback branch for a
throwing moment format token is not taken. -/
def mainHeadingOf (M : MomentOps) (s : Settings) (date : Int) : Str :=
  formatDateWithCustomTokens M s.weeklyNoteHeadingFormat date

/-- The content synthesized for a missing weekly note
(`src/main.ts` lines 377-385): heading line, optional blank line plus
section heading, blank line, start delimiter, end delimiter. -/
def initialWeeklyContent (M : MomentOps) (s : Settings) (date : Int) : Str :=
  mainHeadingOf M s date ++ str "\n" ++
  (if ¬s.weeklyNoteLinksSectionHeading.isEmpty then
    str "\n" ++ s.weeklyNoteLinksSectionHeading ++ str "\n" else []) ++
  str "\n" ++ s.linksStartDelimiter ++ str "\n" ++ s.linksEndDelimiter ++ str "\n"

/-- The rendered region text (`src/main.ts` lines 429-438): sorted
basenames, each rendered through the link template, joined by newlines. -/
def blockTextOf (M : MomentOps) (s : Settings) (entries : List (Str × Int))
    (fallbackDate : Int) : Str :=
  List.intercalate ['\n']
    (((sortEntries entries).map Prod.fst).map (renderLine M s entries fallbackDate))

/-- Reassembly when the region exists (`src/main.ts` lines 461-467 and
563-568): `before ++ START ++ '\n' ++ text (++ '\n' if nonempty) ++ END ++
after`. -/
def rewrittenDocOf (s : Settings) (finalBefore newText contentAfter : Str) : Str :=
  finalBefore ++ s.linksStartDelimiter ++ ['\n'] ++ newText ++
  (if newText.length > 0 then ['\n'] else []) ++ s.linksEndDelimiter ++ contentAfter

/-- Appending a missing section heading to the insertion base
(`src/main.ts` lines 478-480). -/
def sectionAppendText (s : Settings) (cti : Str) : Str :=
  cti ++ (if (str "\n").isSuffixOf cti then [] else ['\n']) ++
  (if (jsTrim cti).isEmpty then [] else ['\n']) ++
  s.weeklyNoteLinksSectionHeading ++ ['\n']

/-- Choice of the insertion base text and insertion point when no region
exists (`src/main.ts` lines 469-492), in the code's priority order: after
the configured section heading when found; after a freshly appended section
heading; after the first line when a main heading is present or will be
ensured; at the end otherwise. -/
def insertPointOf (s : Settings) (present : Bool) (base : Str) : Str × Nat :=
  if ¬s.weeklyNoteLinksSectionHeading.isEmpty then
    match sectionFind (jsTrim s.weeklyNoteLinksSectionHeading) base with
    | some q => (base, q)
    | none =>
      let c := sectionAppendText s base
      (c, c.length)
  else if present = true ∨ (s.ensureWeeklyNoteHeadingExists ∧ present = false) then
    match findNl base with
    | some i => (base, i + 1)
    | none => (base, base.length)
  else (base, base.length)

/-- The block inserted when no region exists (`src/main.ts` lines 494-498);
a separating newline is prepended only when the text before the insertion
point does not already end in one. -/
def blockToInsertOf (s : Settings) (pre : Str) (ip : Nat) (newText : Str) : Str :=
  (if ip > 0 ∧ ¬(str "\n\n").isSuffixOf pre ∧ ¬(str "\n").isSuffixOf pre then
    ['\n'] else []) ++
  s.linksStartDelimiter ++ ['\n'] ++ newText ++
  (if newText.length > 0 then ['\n'] else []) ++ s.linksEndDelimiter ++ ['\n']

/-- The document produced by the region-creating path
(`src/main.ts` lines 468-502). -/
def insertedDocOf (s : Settings) (present : Bool) (base newText : Str) : Str :=
  let cp := insertPointOf s present base
  cp.1.take cp.2 ++ blockToInsertOf s (cp.1.take cp.2) cp.2 newText ++ cp.1.drop cp.2

/-- The tail of `addOrUpdateLinkInWeeklyNote` from the point where the
region entries have been collected (`src/main.ts` lines 426-512): record
whether the link already existed, upsert it into the map, render the region,
and either stop early (with at most a heading-only write), or reassemble and
commit when the normalized text changed. -/
def upsertGo3 (s : Settings) (M : MomentOps) (heading : Str) (d : Int) (b : Str)
    (raw : Str) (created present : Bool) (bs : Option (Str × Str × Str))
    (entries0 : List (Str × Int)) : UpsertResult :=
  let alreadyExists := entries0.any (fun p => p.1 = b)
  let entries := mapSet entries0 b d
  let newText := blockTextOf M s entries d
  if alreadyExists = true ∧ bs.isSome = true ∧
      jsTrim ((bs.map (·.2.1)).getD []) = jsTrim newText then
    if s.ensureWeeklyNoteHeadingExists ∧ present = false then
      if jsTrim raw ≠ jsTrim (heading ++ str "\n" ++ raw) then
        ⟨some (heading ++ str "\n" ++ raw), true, true, false⟩
      else ⟨some raw, false, created, false⟩
    else ⟨some raw, false, created, false⟩
  else
    let updated :=
      match bs with
      | some t =>
        rewrittenDocOf s
          (if s.ensureWeeklyNoteHeadingExists ∧ present = false then
            heading ++ str "\n" ++ t.1 else t.1)
          newText t.2.2
      | none =>
        insertedDocOf s present
          (if s.ensureWeeklyNoteHeadingExists ∧ present = false then
            heading ++ str "\n" ++ raw else raw)
          newText
    if normalizeContent raw ≠ normalizeContent updated then
      ⟨some (normalizeContent updated), true, true, false⟩
    else ⟨some raw, false, created, false⟩

/-- Region location and entry collection (`src/main.ts` lines 394-424):
split the document with the block regex and parse the region's links. -/
def upsertGo2 (M : MomentOps) (parseDate : Str → Option Int) (s : Settings)
    (heading : Str) (d : Int) (b : Str) (raw : Str)
    (created present : Bool) : UpsertResult :=
  let bs := findBlock s.linksStartDelimiter s.linksEndDelimiter raw
  upsertGo3 s M heading d b raw created present bs
    (match bs with
     | some t => buildEntries parseDate t.2.1
     | none => [])

/-- `VaultInteractionService.addOrUpdateLinkInWeeklyNote`
(`src/main.ts` lines 353-513): delimiter guard, then materialization of the
base text (synthesizing a fresh document when the note does not exist, in
which case the heading counts as present), then the region rewrite. -/
def addOrUpdateLinkInWeeklyNote (M : MomentOps) (parseDate : Str → Option Int)
    (s : Settings) (doc0 : Option Str) (dailyNoteDate : Int)
    (dailyFileBasename : Str) : UpsertResult :=
  if s.linksStartDelimiter.isEmpty ∨ s.linksEndDelimiter.isEmpty then
    ⟨doc0, false, false, true⟩
  else
    let heading := mainHeadingOf M s dailyNoteDate
    let raw :=
      match doc0 with
      | none => initialWeeklyContent M s dailyNoteDate
      | some r => r
    upsertGo2 M parseDate s heading dailyNoteDate dailyFileBasename raw doc0.isNone
      (doc0.isNone || hasSub (firstLineOf (jsTrim heading)) raw)

/-- The tail of `removeLinkFromWeeklyNote` once the region has been found
(`src/main.ts` lines 537-576): rebuild the surviving entries, stop when the
count of survivors equals the raw match count, otherwise rewrite the region
and commit the normalized text when it changed. -/
def removeGo (M : MomentOps) (s : Settings) (dctx : Int) (raw bf body af : Str)
    (m : List (Str × Int)) (cnt : Nat) : RemoveResult :=
  if m.length = cnt ∧ cnt > 0 then ⟨some raw, false, false⟩
  else
    let newText := blockTextOf M s m dctx
    let updated := rewrittenDocOf s bf newText af
    if normalizeContent raw ≠ normalizeContent updated then
      ⟨some (normalizeContent updated), true, false⟩
    else ⟨some raw, false, false⟩

/-- `VaultInteractionService.removeLinkFromWeeklyNote`
(`src/main.ts` lines 515-577).  Note that the missing-file check precedes
the delimiter guard. -/
def removeLinkFromWeeklyNote (M : MomentOps) (parseDate : Str → Option Int)
    (s : Settings) (doc0 : Option Str) (dailyNoteDateContext : Int)
    (nameToRemove : Str) : RemoveResult :=
  match doc0 with
  | none => ⟨none, false, false⟩
  | some raw =>
    if s.linksStartDelimiter.isEmpty ∨ s.linksEndDelimiter.isEmpty then
      ⟨some raw, false, true⟩
    else
      match findBlock s.linksStartDelimiter s.linksEndDelimiter raw with
      | none => ⟨some raw, false, false⟩
      | some t =>
        removeGo M s dailyNoteDateContext raw t.1 t.2.1 t.2.2
          (buildEntriesSkipping parseDate nameToRemove t.2.1)
          ((extractLinks t.2.1).length)

/-- The early-stop condition of `upsertGo3` (`src/main.ts` line 440). -/
def noopCond (s : Settings) (M : MomentOps) (d : Int) (b : Str)
    (bs : Option (Str × Str × Str)) (entries0 : List (Str × Int)) : Prop :=
  entries0.any (fun p => p.1 = b) = true ∧ bs.isSome = true ∧
    jsTrim ((bs.map (·.2.1)).getD []) =
      jsTrim (blockTextOf M s (mapSet entries0 b d) d)

/-- The reassembled text computed by the rewrite branch of `upsertGo3`. -/
def upsertUpdatedText (s : Settings) (M : MomentOps) (heading : Str) (d : Int)
    (b : Str) (raw : Str) (present : Bool) (bs : Option (Str × Str × Str))
    (entries0 : List (Str × Int)) : Str :=
  match bs with
  | some t =>
    rewrittenDocOf s
      (if s.ensureWeeklyNoteHeadingExists ∧ present = false then
        heading ++ str "\n" ++ t.1 else t.1)
      (blockTextOf M s (mapSet entries0 b d) d) t.2.2
  | none =>
    insertedDocOf s present
      (if s.ensureWeeklyNoteHeadingExists ∧ present = false then
        heading ++ str "\n" ++ raw else raw)
      (blockTextOf M s (mapSet entries0 b d) d)

/-!
### Concrete fixtures

A configuration with the default delimiters and link template, a token-free
heading and section heading, a moment instance, and a date parser standing
for the classifier under the default `YYYY-MM-DD` format (values are UTC
millisecond timestamps).
-/
/-- A moment.js instance for concrete runs; the claims below never reach the
date arithmetic, so identity operations suffice. -/
def M0 : MomentOps :=
  ⟨fun d _ _ => d, fun d _ _ => d, fun d _ => d, fun d _ => d, fun _ tok => tok⟩

/-- Classifier fixture: the behaviour of `getDailyNoteDateFromPath` with the
default `YYYY-MM-DD` format on the basenames used in the concrete runs;
`1969-12-31` parses to a negative timestamp, the rest are unparseable. -/
def pd0 : Str → Option Int := fun b =>
  if b = str "2025-05-12" then some 1747008000000 else
  if b = str "2025-05-13" then some 1747094400000 else
  if b = str "1969-12-31" then some (-86400000) else none

/-- Concrete settings: default delimiters and link template, token-free
heading and section heading, heading-presence enforcement on. -/
def cfg0 : Settings :=
  ⟨str "# Weekly Log", str "- ![[\x7b\x7bbasename\x7d\x7d]]", true,
   str "## Daily Notes", str "<!-- DAILY LINKS START -->",
   str "<!-- DAILY LINKS END -->"⟩

/-- The basename of the daily note used in concrete runs. -/
def b0 : Str := str "2025-05-12"

/-- The weekly document `addOrUpdateLinkInWeeklyNote` synthesizes for `cfg0`
when the note does not exist. -/
def doc00 : Str :=
  str "# Weekly Log\n\n## Daily Notes\n\n<!-- DAILY LINKS START -->\n<!-- DAILY LINKS END -->\n"

/-- The weekly document after upserting `b0` into a fresh note. -/
def doc01 : Str :=
  str "# Weekly Log\n\n## Daily Notes\n\n<!-- DAILY LINKS START -->\n- ![[2025-05-12]]\n<!-- DAILY LINKS END -->\n"

/-- The block split of `doc00`. -/
def bsplit0 : Option (Str × Str × Str) :=
  some (str "# Weekly Log\n\n## Daily Notes\n\n", [], str "\n")

/-- The block split of `doc01`. -/
def bsplit1 : Option (Str × Str × Str) :=
  some (str "# Weekly Log\n\n## Daily Notes\n\n", str "- ![[2025-05-12]]", str "\n")

/-- An operation suffix that the claim describes as skipped: its parameter
is absent or empty, its operation name is unrecognized, or a numeric
argument is required but absent. -/
def badOpPart (part : Str) : Bool :=
  let kv := (splitOnChar '=' part).map jsTrim
  let operation := kv.headD []
  match kv.get? 1 with
  | none => true
  | some param =>
    param.isEmpty ||
    (let numVal := jsParseInt ((jsSplitWs param).headD [])
     if operation = str "add" ∨ operation = str "subtract" then numVal.isNone
     else decide (operation ≠ str "startOf" ∧ operation ≠ str "endOf"))

/-- The weekly document after upserting the basename `x.md` into a note with
an empty managed region. -/
def docXmd : Str :=
  str "# Weekly Log\n\n## Daily Notes\n\n<!-- DAILY LINKS START -->\n- ![[x.md]]\n<!-- DAILY LINKS END -->\n"

/-- The weekly document after upserting `a` and then `a.md` into a note with
an empty managed region. -/
def docAA : Str :=
  str "# Weekly Log\n\n## Daily Notes\n\n<!-- DAILY LINKS START -->\n- ![[a]]\n- ![[a.md]]\n<!-- DAILY LINKS END -->\n"

/-!
### Round-trip machinery

Characters and basenames for which rendering through the link template and
re-extraction through the link regex are mutually inverse, and the canonical
shape of a document whose managed region holds the rendered lines.
-/
/-- Characters that pass unchanged through the template, the formatter, the
block regex and the extraction regex: alphanumerics and the punctuation
usual in daily-note basenames. -/
def GoodChar (c : Char) : Bool :=
  c.isAlphanum || c = '-' || c = '_' || c = '.' || c = ' '

/-- A basename whose rendered link line extracts back to itself: non-empty,
made of `GoodChar`s, and not ending in `.md` (which the extraction regex
would strip). -/
def GoodNameB (b : Str) : Bool :=
  !b.isEmpty && b.all GoodChar && !((str ".md").isSuffixOf b)

/-- The link line the `cfg0` template renders for a basename. -/
def lineOf (b : Str) : Str := str "- ![[" ++ b ++ str "]]"

/-- The region body rendered for a list of basenames. -/
def bodyOf (names : List Str) : Str := List.intercalate ['\n'] (names.map lineOf)

/-- The region body plus the separating newline the reassembly adds when the
body is non-empty. -/
def blockOf (names : List Str) : Str :=
  if names.isEmpty then [] else bodyOf names ++ ['\n']

/-- The canonical shape of a document under `cfg0` whose managed region
holds exactly the rendered lines of `names`. -/
def docOf (B A : Str) (names : List Str) : Str :=
  B ++ cfg0.linksStartDelimiter ++
    '\n' :: (blockOf names ++ (cfg0.linksEndDelimiter ++ A))

/-- The basename list the reconciler renders after upserting `b` with date
`d` into a region holding `names`. -/
def upsertNames (pd : Str → Option Int) (names : List Str) (b : Str)
    (d : Int) : List Str :=
  (sortEntries (mapSet (names.map (fun n => (n, (pd n).getD 0))) b d)).map
    Prod.fst

/-- The basename list the reconciler renders after removing `nm` from a
region holding `names`. -/
def removeNames (pd : Str → Option Int) (names : List Str) (nm : Str) :
    List Str :=
  (sortEntries ((names.filter (fun n => n ≠ nm)).map
    (fun n => (n, (pd n).getD 0)))).map Prod.fst

theorem captureTok_length {rest tok r2 : Str}
    (h : captureTok rest = some (tok, r2)) : r2.length < rest.length := by
  unfold captureTok at h
  split at h
  next r2' heq =>
    split at h
    · exact absurd h (by simp)
    · have h2 : r2' = r2 := by
        have := Option.some.inj h
        exact congrArg Prod.snd this
      subst h2
      have hlen : (rest.takeWhile (· ≠ '}')).length + (rest.dropWhile (· ≠ '}')).length
          = rest.length := by
        rw [← List.length_append, List.takeWhile_append_dropWhile]
      rw [heq] at hlen
      simp at hlen
      omega
  next => exact absurd h (by simp)

theorem finishNoAlias_length {r r' : Str} (h : finishNoAlias r = some r') :
    r'.length + 2 ≤ r.length := by
  unfold finishNoAlias at h
  split at h
  · split at h
    · cases Option.some.inj h; simp
    · exact absurd h (by simp)
  · exact absurd h (by simp)

theorem finishAfterMd_length {r r' : Str} (h : finishAfterMd r = some r') :
    r'.length + 2 ≤ r.length := by
  unfold finishAfterMd at h
  split at h
  · exact absurd h (by simp)
  next c r2 =>
    split at h
    · split at h
      next c1 c2 r4 heq =>
        split at h
        · cases Option.some.inj h
          have hsub := (List.dropWhile_sublist (l := r2) (· ≠ ']')).length_le
          rw [heq] at hsub
          simp at hsub ⊢
          omega
        · have := finishNoAlias_length h
          simpa using this
      next =>
        have := finishNoAlias_length h
        simpa using this
    · have := finishNoAlias_length h
      simpa using this

theorem tryFinish_length {r r' : Str} (h : tryFinish r = some r') :
    r'.length + 2 ≤ r.length := by
  unfold tryFinish at h
  split at h
  next c1 c2 c3 r2 =>
    split at h
    · split at h
      next r'' heq =>
        cases Option.some.inj h
        have := finishAfterMd_length heq
        simp at this ⊢
        omega
      next => exact finishAfterMd_length h
    · exact finishAfterMd_length h
  next => exact finishAfterMd_length h

theorem tryGroup1_length {acc rest nm r' : Str}
    (h : tryGroup1 acc rest = some (nm, r')) : r'.length + 3 ≤ rest.length := by
  induction rest generalizing acc with
  | nil => exact absurd h (by simp [tryGroup1])
  | cons c rest ih =>
    unfold tryGroup1 at h
    split at h
    · exact absurd h (by simp)
    · split at h
      next r'' heq =>
        have h2 : r'' = r' := congrArg Prod.snd (Option.some.inj h)
        subst h2
        have := tryFinish_length heq
        simp
        omega
      next =>
        have := ih h
        simp
        omega

theorem tryLink_length {s nm r' : Str} (h : tryLink s = some (nm, r')) :
    r'.length < s.length := by
  unfold tryLink at h
  split at h
  · split at h
    · have := tryGroup1_length h
      simp
      omega
    · exact absurd h (by simp)
  · exact absurd h (by simp)

theorem findTermin_lt {t : Str} {i : Nat} (h : findTermin t = some i) :
    i < t.length := by
  induction t generalizing i with
  | nil => exact absurd h (by simp [findTermin])
  | cons c r ih =>
    unfold findTermin at h
    split at h
    · cases Option.some.inj h; simp
    · rcases hj : findTermin r with _ | j
      · rw [hj] at h; simp at h
      · rw [hj] at h
        simp at h
        have := ih hj
        simp
        omega

/-!
### Equation and outcome lemmas for the reconciler stages

These unfold the staged definitions symbolically; no string computation is
performed here, so they apply to arbitrary inputs.
-/
theorem addOrUpdate_none_eq (M : MomentOps) (pd : Str → Option Int) (s : Settings)
    (d : Int) (b : Str)
    (hS : s.linksStartDelimiter.isEmpty = false)
    (hE : s.linksEndDelimiter.isEmpty = false) :
    addOrUpdateLinkInWeeklyNote M pd s none d b =
      upsertGo2 M pd s (mainHeadingOf M s d) d b (initialWeeklyContent M s d)
        true true := by
  have hg : ¬(s.linksStartDelimiter.isEmpty = true ∨
      s.linksEndDelimiter.isEmpty = true) := by simp [hS, hE]
  unfold addOrUpdateLinkInWeeklyNote
  rw [if_neg hg]
  rfl

theorem addOrUpdate_some_eq (M : MomentOps) (pd : Str → Option Int) (s : Settings)
    (raw : Str) (d : Int) (b : Str)
    (hS : s.linksStartDelimiter.isEmpty = false)
    (hE : s.linksEndDelimiter.isEmpty = false) :
    addOrUpdateLinkInWeeklyNote M pd s (some raw) d b =
      upsertGo2 M pd s (mainHeadingOf M s d) d b raw false
        (hasSub (firstLineOf (jsTrim (mainHeadingOf M s d))) raw) := by
  have hg : ¬(s.linksStartDelimiter.isEmpty = true ∨
      s.linksEndDelimiter.isEmpty = true) := by simp [hS, hE]
  unfold addOrUpdateLinkInWeeklyNote
  rw [if_neg hg]
  rfl

theorem upsertGo2_eq (M : MomentOps) (pd : Str → Option Int) (s : Settings)
    (heading : Str) (d : Int) (b : Str) (raw : Str) (created present : Bool) :
    upsertGo2 M pd s heading d b raw created present =
      upsertGo3 s M heading d b raw created present
        (findBlock s.linksStartDelimiter s.linksEndDelimiter raw)
        (match findBlock s.linksStartDelimiter s.linksEndDelimiter raw with
         | some t => buildEntries pd t.2.1
         | none => []) := rfl

theorem upsertGo3_noop_headwrite (s : Settings) (M : MomentOps) (heading : Str)
    (d : Int) (b raw : Str) (created present : Bool)
    (bs : Option (Str × Str × Str)) (entries0 : List (Str × Int))
    (h1 : noopCond s M d b bs entries0)
    (h2 : s.ensureWeeklyNoteHeadingExists ∧ present = false)
    (h3 : jsTrim raw ≠ jsTrim (heading ++ str "\n" ++ raw)) :
    upsertGo3 s M heading d b raw created present bs entries0 =
      ⟨some (heading ++ str "\n" ++ raw), true, true, false⟩ := by
  unfold noopCond at h1
  simp only [upsertGo3]
  rw [if_pos h1, if_pos h2, if_pos h3]

theorem upsertGo3_noop_headsame (s : Settings) (M : MomentOps) (heading : Str)
    (d : Int) (b raw : Str) (created present : Bool)
    (bs : Option (Str × Str × Str)) (entries0 : List (Str × Int))
    (h1 : noopCond s M d b bs entries0)
    (h2 : s.ensureWeeklyNoteHeadingExists ∧ present = false)
    (h3 : ¬jsTrim raw ≠ jsTrim (heading ++ str "\n" ++ raw)) :
    upsertGo3 s M heading d b raw created present bs entries0 =
      ⟨some raw, false, created, false⟩ := by
  unfold noopCond at h1
  simp only [upsertGo3]
  rw [if_pos h1, if_pos h2, if_neg h3]

theorem upsertGo3_noop (s : Settings) (M : MomentOps) (heading : Str)
    (d : Int) (b raw : Str) (created present : Bool)
    (bs : Option (Str × Str × Str)) (entries0 : List (Str × Int))
    (h1 : noopCond s M d b bs entries0)
    (h2 : ¬(s.ensureWeeklyNoteHeadingExists ∧ present = false)) :
    upsertGo3 s M heading d b raw created present bs entries0 =
      ⟨some raw, false, created, false⟩ := by
  unfold noopCond at h1
  simp only [upsertGo3]
  rw [if_pos h1, if_neg h2]

theorem upsertGo3_rewrite_changed (s : Settings) (M : MomentOps) (heading : Str)
    (d : Int) (b raw : Str) (created present : Bool)
    (bs : Option (Str × Str × Str)) (entries0 : List (Str × Int))
    (h1 : ¬noopCond s M d b bs entries0)
    (h2 : normalizeContent raw ≠
      normalizeContent (upsertUpdatedText s M heading d b raw present bs entries0)) :
    upsertGo3 s M heading d b raw created present bs entries0 =
      ⟨some (normalizeContent
        (upsertUpdatedText s M heading d b raw present bs entries0)),
        true, true, false⟩ := by
  unfold noopCond at h1
  simp only [upsertGo3]
  rw [if_neg h1]
  unfold upsertUpdatedText at h2 ⊢
  rw [if_pos h2]

theorem upsertGo3_rewrite_unchanged (s : Settings) (M : MomentOps) (heading : Str)
    (d : Int) (b raw : Str) (created present : Bool)
    (bs : Option (Str × Str × Str)) (entries0 : List (Str × Int))
    (h1 : ¬noopCond s M d b bs entries0)
    (h2 : ¬normalizeContent raw ≠
      normalizeContent (upsertUpdatedText s M heading d b raw present bs entries0)) :
    upsertGo3 s M heading d b raw created present bs entries0 =
      ⟨some raw, false, created, false⟩ := by
  unfold noopCond at h1
  simp only [upsertGo3]
  rw [if_neg h1]
  unfold upsertUpdatedText at h2
  rw [if_neg h2]

theorem removeGo_noop (M : MomentOps) (s : Settings) (dctx : Int)
    (raw bf body af : Str) (m : List (Str × Int)) (cnt : Nat)
    (h : m.length = cnt ∧ cnt > 0) :
    removeGo M s dctx raw bf body af m cnt = ⟨some raw, false, false⟩ := by
  simp only [removeGo]
  rw [if_pos h]

theorem removeGo_changed (M : MomentOps) (s : Settings) (dctx : Int)
    (raw bf body af : Str) (m : List (Str × Int)) (cnt : Nat)
    (h1 : ¬(m.length = cnt ∧ cnt > 0))
    (h2 : normalizeContent raw ≠
      normalizeContent (rewrittenDocOf s bf (blockTextOf M s m dctx) af)) :
    removeGo M s dctx raw bf body af m cnt =
      ⟨some (normalizeContent (rewrittenDocOf s bf (blockTextOf M s m dctx) af)),
        true, false⟩ := by
  simp only [removeGo]
  rw [if_neg h1, if_pos h2]

theorem removeGo_unchanged (M : MomentOps) (s : Settings) (dctx : Int)
    (raw bf body af : Str) (m : List (Str × Int)) (cnt : Nat)
    (h1 : ¬(m.length = cnt ∧ cnt > 0))
    (h2 : ¬normalizeContent raw ≠
      normalizeContent (rewrittenDocOf s bf (blockTextOf M s m dctx) af)) :
    removeGo M s dctx raw bf body af m cnt = ⟨some raw, false, false⟩ := by
  simp only [removeGo]
  rw [if_neg h1, if_neg h2]

theorem remove_some_eq (M : MomentOps) (pd : Str → Option Int) (s : Settings)
    (raw : Str) (dctx : Int) (name : Str) (t : Str × Str × Str)
    (hS : s.linksStartDelimiter.isEmpty = false)
    (hE : s.linksEndDelimiter.isEmpty = false)
    (hfb : findBlock s.linksStartDelimiter s.linksEndDelimiter raw = some t) :
    removeLinkFromWeeklyNote M pd s (some raw) dctx name =
      removeGo M s dctx raw t.1 t.2.1 t.2.2
        (buildEntriesSkipping pd name t.2.1) ((extractLinks t.2.1).length) := by
  have hg : ¬(s.linksStartDelimiter.isEmpty = true ∨
      s.linksEndDelimiter.isEmpty = true) := by simp [hS, hE]
  simp only [removeLinkFromWeeklyNote]
  rw [if_neg hg, hfb]

theorem remove_some_noBlock (M : MomentOps) (pd : Str → Option Int) (s : Settings)
    (raw : Str) (dctx : Int) (name : Str)
    (hS : s.linksStartDelimiter.isEmpty = false)
    (hE : s.linksEndDelimiter.isEmpty = false)
    (hfb : findBlock s.linksStartDelimiter s.linksEndDelimiter raw = none) :
    removeLinkFromWeeklyNote M pd s (some raw) dctx name =
      ⟨some raw, false, false⟩ := by
  have hg : ¬(s.linksStartDelimiter.isEmpty = true ∨
      s.linksEndDelimiter.isEmpty = true) := by simp [hS, hE]
  simp only [removeLinkFromWeeklyNote]
  rw [if_neg hg, hfb]

/-!
### Claim C1
-/
/-- Counterexample to C1 as stated: on a document whose managed region
already contains exactly the upserted entry, the first call reports
"unchanged" (returns `false`) and performs no write, while the claim demands
that the first of two identical calls always report "changed". -/
theorem upsert_first_call_not_always_changed_cex :
    (addOrUpdateLinkInWeeklyNote M0 pd0 cfg0 (some doc01) 1747008000000 b0).ret
        = false ∧
    (addOrUpdateLinkInWeeklyNote M0 pd0 cfg0 (some doc01) 1747008000000 b0).wrote
        = false := by
  constructor <;> decide

/-- C1 as amended: for every moment instance, date parser and date, under
the concrete default-style configuration `cfg0`, upserting the entry twice
into a document that does not yet exist reports "changed" on the first call
(which creates and fills the note) and "unchanged" on the second, and the
second call performs no write at all. -/
theorem upsert_twice_changed_then_unchanged
    (M : MomentOps) (pd : Str → Option Int) (d : Int) :
    let r1 := addOrUpdateLinkInWeeklyNote M pd cfg0 none d b0
    let r2 := addOrUpdateLinkInWeeklyNote M pd cfg0 r1.doc d b0
    r1.ret = true ∧ r1.doc = some doc01 ∧ r2.ret = false ∧ r2.wrote = false := by
  have hh : mainHeadingOf M cfg0 d = str "# Weekly Log" := rfl
  have hi : initialWeeklyContent M cfg0 d = doc00 := by
    unfold initialWeeklyContent
    rw [hh]
    rfl
  have hf : findBlock cfg0.linksStartDelimiter cfg0.linksEndDelimiter doc00
      = bsplit0 := by decide
  have hr1 : addOrUpdateLinkInWeeklyNote M pd cfg0 none d b0 =
      upsertGo3 cfg0 M (str "# Weekly Log") d b0 doc00 true true bsplit0 [] := by
    rw [addOrUpdate_none_eq M pd cfg0 d b0 rfl rfl, hh, hi, upsertGo2_eq, hf]
    rfl
  have hnc : ¬noopCond cfg0 M d b0 bsplit0 [] := by
    intro hcon
    exact absurd hcon.1 (by decide)
  have hupd : upsertUpdatedText cfg0 M (str "# Weekly Log") d b0 doc00 true
      bsplit0 [] = doc01 := by
    unfold upsertUpdatedText
    show rewrittenDocOf cfg0 _ (blockTextOf M cfg0 (mapSet [] b0 d) d) _ = _
    rw [show blockTextOf M cfg0 (mapSet [] b0 d) d = str "- ![[2025-05-12]]"
      from rfl]
    decide
  have hch : normalizeContent doc00 ≠ normalizeContent
      (upsertUpdatedText cfg0 M (str "# Weekly Log") d b0 doc00 true bsplit0 []) := by
    rw [hupd]
    decide
  have hr1f := upsertGo3_rewrite_changed cfg0 M (str "# Weekly Log") d b0 doc00
    true true bsplit0 [] hnc hch
  rw [hupd, show normalizeContent doc01 = doc01 by decide] at hr1f
  have hR1 : addOrUpdateLinkInWeeklyNote M pd cfg0 none d b0 =
      ⟨some doc01, true, true, false⟩ := hr1.trans hr1f
  have hf1 : findBlock cfg0.linksStartDelimiter cfg0.linksEndDelimiter doc01
      = bsplit1 := by decide
  have hr2 : addOrUpdateLinkInWeeklyNote M pd cfg0 (some doc01) d b0 =
      upsertGo3 cfg0 M (str "# Weekly Log") d b0 doc01 false true bsplit1
        [(b0, (pd b0).getD 0)] := by
    rw [addOrUpdate_some_eq M pd cfg0 doc01 d b0 rfl rfl, hh, upsertGo2_eq, hf1]
    rfl
  have hnc2 : noopCond cfg0 M d b0 bsplit1 [(b0, (pd b0).getD 0)] := by
    refine ⟨rfl, rfl, ?_⟩
    rw [show mapSet [(b0, (pd b0).getD 0)] b0 d = [(b0, d)] from rfl]
    rw [show blockTextOf M cfg0 [(b0, d)] d = str "- ![[2025-05-12]]" from rfl]
    decide
  have hr2f := upsertGo3_noop cfg0 M (str "# Weekly Log") d b0 doc01 false true
    bsplit1 [(b0, (pd b0).getD 0)] hnc2 (by simp [cfg0])
  have hR2 : addOrUpdateLinkInWeeklyNote M pd cfg0 (some doc01) d b0 =
      ⟨some doc01, false, false, false⟩ := hr2.trans hr2f
  dsimp only
  rw [hR1]
  dsimp only
  rw [hR2]
  exact ⟨rfl, rfl, rfl, rfl⟩

/-!
### Claim C4
-/
/-- Counterexample to C4 as stated: with an empty start delimiter,
`removeLinkFromWeeklyNote` on a non-existent document returns silently
before ever reaching the delimiter guard, so no `ConfigError` is reported,
while the claim demands that every reconciliation call fail with
`ConfigError`. -/
theorem remove_missing_doc_no_configError_cex :
    (removeLinkFromWeeklyNote M0 pd0
      ⟨str "# Weekly Log", str "- ![[\x7b\x7bbasename\x7d\x7d]]", true,
       str "## Daily Notes", [], str "<!-- DAILY LINKS END -->"⟩
      none 1747008000000 b0).configError = false := by decide

/-- C4 as amended: with an empty start or end delimiter no reconciliation
mutates the document and none writes; `addOrUpdateLinkInWeeklyNote` always
stops at the `ConfigError` guard, and `removeLinkFromWeeklyNote` stops there
exactly when the document exists — on a missing document it is a silent
no-op, the missing-file check preceding the guard. -/
theorem empty_delims_no_mutation (M : MomentOps) (pd : Str → Option Int)
    (s : Settings) (doc : Option Str) (d : Int) (b nm : Str)
    (h : s.linksStartDelimiter.isEmpty = true ∨ s.linksEndDelimiter.isEmpty = true) :
    addOrUpdateLinkInWeeklyNote M pd s doc d b = ⟨doc, false, false, true⟩ ∧
    removeLinkFromWeeklyNote M pd s doc d nm = ⟨doc, false, doc.isSome⟩ := by
  constructor
  · unfold addOrUpdateLinkInWeeklyNote
    rw [if_pos h]
  · cases doc with
    | none => rfl
    | some raw =>
      simp only [removeLinkFromWeeklyNote]
      rw [if_pos h]
      rfl

/-- Witness for the amended C4 at a concrete configuration and document. -/
theorem empty_delims_no_mutation_witness :
    ((str "x" : Str).isEmpty = true ∨ ([] : Str).isEmpty = true) ∧
    addOrUpdateLinkInWeeklyNote M0 pd0
      ⟨str "# Weekly Log", str "- ![[\x7b\x7bbasename\x7d\x7d]]", true,
       str "## Daily Notes", str "x", []⟩ (some doc01) 5 b0
      = ⟨some doc01, false, false, true⟩ ∧
    removeLinkFromWeeklyNote M0 pd0
      ⟨str "# Weekly Log", str "- ![[\x7b\x7bbasename\x7d\x7d]]", true,
       str "## Daily Notes", str "x", []⟩ (some doc01) 5 b0
      = ⟨some doc01, false, true⟩ := by
  refine ⟨by decide, ?_⟩
  have h := empty_delims_no_mutation M0 pd0
    ⟨str "# Weekly Log", str "- ![[\x7b\x7bbasename\x7d\x7d]]", true,
     str "## Daily Notes", str "x", []⟩ (some doc01) 5 b0 b0 (by decide)
  exact ⟨h.1, h.2⟩

/-!
### Claim C8
-/
/-- Counterexample to C8 as stated: the format `YYYY_MM_DD` consists solely
of the date-token characters `Y`, `M`, `D` and the non-alphanumeric
separator `_`, so the claim's criterion selects strict parsing, but the
source's test `/^[YMD\W]+$/` rejects the underscore (a word character) and
parses leniently. -/
theorem strict_heuristic_underscore_cex :
    strictPerClaim (str "YYYY_MM_DD") = true ∧
    useStrictParsing (str "YYYY_MM_DD") = false := by decide

/-- C8 as amended: strict parsing is selected exactly when the format is
nonempty and every character is `Y`, `M`, `D`, or a non-word character —
non-alphanumeric and not an underscore.  (The claim's reading, which also
admits the underscore as a separator and other date-token letters, differs
at formats such as `YYYY_MM_DD`.) -/
theorem useStrictParsing_charclass (fm : Str) :
    useStrictParsing fm = true ↔
      fm ≠ [] ∧ ∀ c ∈ fm, c = 'Y' ∨ c = 'M' ∨ c = 'D' ∨ ¬(c.isAlphanum ∨ c = '_') := by
  unfold useStrictParsing jsIsWordChar
  rw [Bool.and_eq_true, List.all_eq_true]
  constructor
  · rintro ⟨h1, h2⟩
    refine ⟨by simpa using h1, fun c hc => ?_⟩
    have := h2 c hc
    simp only [Bool.or_eq_true, Bool.not_eq_true', Bool.or_eq_false_iff] at this
    rcases this with ((hY | hM) | hD) | ⟨ha, hu⟩
    · exact Or.inl (by simpa using hY)
    · exact Or.inr (Or.inl (by simpa using hM))
    · exact Or.inr (Or.inr (Or.inl (by simpa using hD)))
    · refine Or.inr (Or.inr (Or.inr ?_))
      rintro (hA | hU)
      · rw [ha] at hA; exact Bool.false_ne_true hA
      · rw [hU] at hu; simp at hu
  · rintro ⟨h1, h2⟩
    refine ⟨by simpa using h1, fun c hc => ?_⟩
    rcases h2 c hc with hY | hM | hD | hn
    · simp [hY]
    · simp [hM]
    · simp [hD]
    · simp only [Bool.or_eq_true, Bool.not_eq_true', Bool.or_eq_false_iff]
      refine Or.inr ⟨?_, ?_⟩
      · by_contra hA
        exact hn (Or.inl (by simpa using hA))
      · by_contra hU
        simp at hU
        exact hn (Or.inr hU)

/-- Witness for the amended C8 at the default daily-note format. -/
theorem useStrictParsing_charclass_witness :
    str "YYYY-MM-DD" ≠ [] ∧
    ∀ c ∈ str "YYYY-MM-DD", c = 'Y' ∨ c = 'M' ∨ c = 'D' ∨
      ¬(c.isAlphanum ∨ c = '_') :=
  (useStrictParsing_charclass (str "YYYY-MM-DD")).mp (by decide)

/-!
### Claim C9
-/
/-- C9: each comma-separated operation of a placeholder that is unrecognized
or lacks a required numeric argument is silently skipped by the token
formatter's per-operation step — no error, and the date used for formatting
is exactly what it was before the operation. -/
theorem applyPart_skips_bad_ops (M : MomentOps) (d : Int) (part : Str)
    (h : badOpPart part = true) : applyPart M d part = d := by
  unfold badOpPart at h
  unfold applyPart
  cases hg : ((splitOnChar '=' part).map jsTrim).get? 1 with
  | none => simp only [hg]
  | some param =>
    simp only [hg] at h ⊢
    by_cases hp : param.isEmpty
    · rw [if_pos hp]
    · rw [if_neg hp]
      simp only [hp, Bool.false_or] at h
      by_cases ha : ((splitOnChar '=' part).map jsTrim).headD [] = str "add" ∨
          ((splitOnChar '=' part).map jsTrim).headD [] = str "subtract"
      · rw [if_pos ha] at h
        rcases ha with ha | ha
        · rw [if_neg, if_neg, if_neg, if_neg]
          · rintro ⟨he, -⟩
            rw [ha] at he
            simp [str] at he
          · rintro ⟨he, -⟩
            rw [ha] at he
            simp [str] at he
          · rintro ⟨-, hn, -⟩
            rw [Option.isNone_iff_eq_none.mp h] at hn
            simp at hn
          · rintro ⟨he, hn, -⟩
            rw [Option.isNone_iff_eq_none.mp h] at hn
            simp at hn
        · rw [if_neg, if_neg, if_neg, if_neg]
          · rintro ⟨he, -⟩
            rw [ha] at he
            simp [str] at he
          · rintro ⟨he, -⟩
            rw [ha] at he
            simp [str] at he
          · rintro ⟨-, hn, -⟩
            rw [Option.isNone_iff_eq_none.mp h] at hn
            simp at hn
          · rintro ⟨he, -⟩
            rw [ha] at he
            simp [str] at he
      · rw [if_neg ha] at h
        have hso : ((splitOnChar '=' part).map jsTrim).headD [] ≠ str "startOf" ∧
            ((splitOnChar '=' part).map jsTrim).headD [] ≠ str "endOf" := by
          simpa using h
        push_neg at ha
        rw [if_neg, if_neg, if_neg, if_neg]
        · rintro ⟨he, -⟩
          exact hso.2 he
        · rintro ⟨he, -⟩
          exact hso.1 he
        · rintro ⟨he, -⟩
          exact ha.2 he
        · rintro ⟨he, -⟩
          exact ha.1 he

/-- Witness for C9: a moment instance whose `add` genuinely moves the date,
an unrecognized operation, and an `add` with a non-numeric argument — both
are skipped. -/
theorem applyPart_skips_bad_ops_witness :
    badOpPart (str "frobnicate=3 days") = true ∧
    applyPart ⟨fun d n _ => d + n, fun d n _ => d - n, fun d _ => d,
      fun d _ => d, fun _ tok => tok⟩ 7 (str "frobnicate=3 days") = 7 ∧
    badOpPart (str "add=many days") = true ∧
    applyPart ⟨fun d n _ => d + n, fun d n _ => d - n, fun d _ => d,
      fun d _ => d, fun _ tok => tok⟩ 7 (str "add=many days") = 7 :=
  ⟨by decide,
   applyPart_skips_bad_ops _ 7 (str "frobnicate=3 days") (by decide),
   by decide,
   applyPart_skips_bad_ops _ 7 (str "add=many days") (by decide)⟩

/-!
### Claim C10
-/
/-- C10: on a region that holds two link lines with the same basename,
removing a basename that occurs nowhere in the region is not a no-op: the
survivor count (1, distinct keys) differs from the raw match count (2), so
the region is rewritten — deduplicated — and the document is modified. -/
theorem remove_absent_name_rewrites_duplicates :
    (removeLinkFromWeeklyNote M0 pd0 cfg0
      (some (str "# Weekly Log\n\n<!-- DAILY LINKS START -->\n- ![[2025-05-12]]\n- ![[2025-05-12]]\n<!-- DAILY LINKS END -->\n"))
      1747008000000 (str "zzz")).wrote = true ∧
    (removeLinkFromWeeklyNote M0 pd0 cfg0
      (some (str "# Weekly Log\n\n<!-- DAILY LINKS START -->\n- ![[2025-05-12]]\n- ![[2025-05-12]]\n<!-- DAILY LINKS END -->\n"))
      1747008000000 (str "zzz")).doc =
      some (str "# Weekly Log\n\n<!-- DAILY LINKS START -->\n- ![[2025-05-12]]\n<!-- DAILY LINKS END -->\n") := by
  constructor <;> decide

/-!
### Lemmas about the stable sort
-/
theorem insertEntry_perm (x : Str × Int) (l : List (Str × Int)) :
    List.Perm (insertEntry x l) (x :: l) := by
  induction l with
  | nil => rfl
  | cons y ys ih =>
    unfold insertEntry
    by_cases h : y.2 ≤ x.2
    · rw [if_pos h]
      exact (ih.cons y).trans (List.Perm.swap x y ys)
    · rw [if_neg h]

theorem sortEntries_aux_perm (l acc : List (Str × Int)) :
    List.Perm (l.foldl (fun a x => insertEntry x a) acc) (acc ++ l) := by
  induction l generalizing acc with
  | nil => simp
  | cons x xs ih =>
    have h1 := ih (insertEntry x acc)
    have h2 : List.Perm (insertEntry x acc ++ xs) (acc ++ x :: xs) := by
      refine ((insertEntry_perm x acc).append_right xs).trans ?_
      exact List.perm_middle.symm
    simpa using h1.trans h2

theorem sortEntries_perm (m : List (Str × Int)) : List.Perm (sortEntries m) m := by
  simpa using sortEntries_aux_perm m []

theorem insertEntry_pairwise (x : Str × Int) (l : List (Str × Int))
    (h : l.Pairwise (fun a b => a.2 ≤ b.2)) :
    (insertEntry x l).Pairwise (fun a b => a.2 ≤ b.2) := by
  induction l with
  | nil => simp [insertEntry]
  | cons y ys ih =>
    unfold insertEntry
    by_cases hle : y.2 ≤ x.2
    · rw [if_pos hle]
      refine List.Pairwise.cons ?_ (ih (List.Pairwise.of_cons h))
      intro z hz
      rcases List.mem_cons.mp ((insertEntry_perm x ys).mem_iff.mp hz) with hzx | hzy
      · rw [hzx]; exact hle
      · exact List.rel_of_pairwise_cons h hzy
    · rw [if_neg hle]
      have hxy : x.2 ≤ y.2 := le_of_not_le hle
      refine List.Pairwise.cons ?_ h
      intro z hz
      rcases List.mem_cons.mp hz with hzy | hzys
      · rw [hzy]; exact hxy
      · exact hxy.trans (List.rel_of_pairwise_cons h hzys)

theorem sortEntries_aux_pairwise (l acc : List (Str × Int))
    (h : acc.Pairwise (fun a b => a.2 ≤ b.2)) :
    (l.foldl (fun a x => insertEntry x a) acc).Pairwise (fun a b => a.2 ≤ b.2) := by
  induction l generalizing acc with
  | nil => simpa using h
  | cons x xs ih => exact ih (insertEntry x acc) (insertEntry_pairwise x acc h)

theorem sortEntries_pairwise (m : List (Str × Int)) :
    (sortEntries m).Pairwise (fun a b => a.2 ≤ b.2) :=
  sortEntries_aux_pairwise m [] (by simp)

theorem insertEntry_append_of_le (x : Str × Int) (l : List (Str × Int))
    (h : ∀ y ∈ l, y.2 ≤ x.2) : insertEntry x l = l ++ [x] := by
  induction l with
  | nil => rfl
  | cons y ys ih =>
    unfold insertEntry
    rw [if_pos (h y (List.mem_cons_self y ys))]
    rw [ih (fun z hz => h z (List.mem_cons_of_mem y hz))]
    rfl

theorem sortEntries_aux_of_pairwise :
    ∀ (l acc : List (Str × Int)),
      acc.Pairwise (fun a b => a.2 ≤ b.2) →
      l.Pairwise (fun a b => a.2 ≤ b.2) →
      (∀ a ∈ acc, ∀ b ∈ l, a.2 ≤ b.2) →
      l.foldl (fun a x => insertEntry x a) acc = acc ++ l := by
  intro l
  induction l with
  | nil => intro acc _ _ _; simp
  | cons x xs ih =>
    intro acc hacc hl hcross
    have hstep : insertEntry x acc = acc ++ [x] :=
      insertEntry_append_of_le x acc
        (fun y hy => hcross y hy x (List.mem_cons_self x xs))
    have hacc' : (acc ++ [x]).Pairwise (fun a b => a.2 ≤ b.2) := by
      rw [List.pairwise_append]
      refine ⟨hacc, by simp, ?_⟩
      intro a ha b hb
      rw [List.mem_singleton] at hb
      rw [hb]
      exact hcross a ha x (List.mem_cons_self x xs)
    have hcross' : ∀ a ∈ acc ++ [x], ∀ b ∈ xs, a.2 ≤ b.2 := by
      intro a ha b hb
      rcases List.mem_append.mp ha with ha | ha
      · exact hcross a ha b (List.mem_cons_of_mem x hb)
      · rw [List.mem_singleton] at ha
        rw [ha]
        exact List.rel_of_pairwise_cons hl hb
    have hres := ih (acc ++ [x]) hacc' (List.Pairwise.of_cons hl) hcross'
    calc (x :: xs).foldl (fun a y => insertEntry y a) acc
        = xs.foldl (fun a y => insertEntry y a) (insertEntry x acc) := rfl
      _ = xs.foldl (fun a y => insertEntry y a) (acc ++ [x]) := by rw [hstep]
      _ = (acc ++ [x]) ++ xs := hres
      _ = acc ++ x :: xs := by simp

theorem sortEntries_of_pairwise (m : List (Str × Int))
    (h : m.Pairwise (fun a b => a.2 ≤ b.2)) : sortEntries m = m := by
  have h0 := sortEntries_aux_of_pairwise m [] (by simp) h (by simp)
  unfold sortEntries
  rw [h0]
  rfl

/-!
### Claim C3
-/
set_option maxRecDepth 4000 in
/-- Counterexample to C3 as stated: `1969-12-31` parses to a negative
timestamp, so after reconciliation the unparseable basename `junk` — carrying
the epoch sentinel `0` — is listed after a parseable entry, while the claim
demands that unparseable entries sort before all parseable ones. -/
theorem sort_epoch_sentinel_cex :
    pd0 (str "junk") = none ∧
    pd0 (str "1969-12-31") = some (-86400000) ∧
    (addOrUpdateLinkInWeeklyNote M0 pd0 cfg0
      (some (str "# Weekly Log\n\n<!-- DAILY LINKS START -->\n- ![[junk]]\n- ![[1969-12-31]]\n<!-- DAILY LINKS END -->\n"))
      1747008000000 b0).doc =
      some (str "# Weekly Log\n\n<!-- DAILY LINKS START -->\n- ![[1969-12-31]]\n- ![[junk]]\n- ![[2025-05-12]]\n<!-- DAILY LINKS END -->\n") := by
  refine ⟨by decide, by decide, by decide⟩

/-!
### Claim C2
-/
theorem rewrittenDocOf_shape (s : Settings) (fb nt af : Str) :
    rewrittenDocOf s fb nt af =
      fb ++ s.linksStartDelimiter ++ ['\n'] ++
        (nt ++ (if nt.length > 0 then ['\n'] else [])) ++
        s.linksEndDelimiter ++ af := by
  unfold rewrittenDocOf
  simp [List.append_assoc]

/-- C2: whenever the document contains a managed region (the block regex
matches, splitting it as `bf ++ START ++ … ++ END ++ af`), any
reconciliation leaves the document in one of three shapes: untouched; the
original with the heading prepended (the one permitted heading-insertion
edit); or the normalization of `hp ++ bf ++ START ++ newline ++ R ++ END ++
af` for some region text `R`, with `hp` empty or the heading-insertion
prefix — so the text before the start delimiter and after the end delimiter
is preserved byte-for-byte up to the final line-ending normalization pass
and the heading edit. -/
theorem region_isolation (M : MomentOps) (pd : Str → Option Int) (s : Settings)
    (raw bf body af : Str) (d : Int) (b nm : Str)
    (hS : s.linksStartDelimiter.isEmpty = false)
    (hE : s.linksEndDelimiter.isEmpty = false)
    (hfb : findBlock s.linksStartDelimiter s.linksEndDelimiter raw
      = some (bf, body, af)) :
    ((addOrUpdateLinkInWeeklyNote M pd s (some raw) d b).doc = some raw ∨
     (addOrUpdateLinkInWeeklyNote M pd s (some raw) d b).doc =
       some (mainHeadingOf M s d ++ str "\n" ++ raw) ∨
     ∃ hp R, (hp = [] ∨ hp = mainHeadingOf M s d ++ str "\n") ∧
       (addOrUpdateLinkInWeeklyNote M pd s (some raw) d b).doc =
         some (normalizeContent (hp ++ bf ++ s.linksStartDelimiter ++ ['\n'] ++
           R ++ s.linksEndDelimiter ++ af))) ∧
    ((removeLinkFromWeeklyNote M pd s (some raw) d nm).doc = some raw ∨
     ∃ R, (removeLinkFromWeeklyNote M pd s (some raw) d nm).doc =
       some (normalizeContent (bf ++ s.linksStartDelimiter ++ ['\n'] ++ R ++
         s.linksEndDelimiter ++ af))) := by
  constructor
  · rw [addOrUpdate_some_eq M pd s raw d b hS hE, upsertGo2_eq, hfb]
    set heading := mainHeadingOf M s d with hhead
    set present := hasSub (firstLineOf (jsTrim heading)) raw with hpres
    set entries0 := buildEntries pd body with hent
    by_cases hc : noopCond s M d b (some (bf, body, af)) entries0
    · by_cases hh : s.ensureWeeklyNoteHeadingExists ∧ present = false
      · by_cases ht : jsTrim raw ≠ jsTrim (heading ++ str "\n" ++ raw)
        · rw [upsertGo3_noop_headwrite s M heading d b raw false present
            (some (bf, body, af)) entries0 hc hh ht]
          exact Or.inr (Or.inl rfl)
        · rw [upsertGo3_noop_headsame s M heading d b raw false present
            (some (bf, body, af)) entries0 hc hh ht]
          exact Or.inl rfl
      · rw [upsertGo3_noop s M heading d b raw false present
          (some (bf, body, af)) entries0 hc hh]
        exact Or.inl rfl
    · by_cases hcmp : normalizeContent raw ≠ normalizeContent
        (upsertUpdatedText s M heading d b raw present (some (bf, body, af)) entries0)
      · rw [upsertGo3_rewrite_changed s M heading d b raw false present
          (some (bf, body, af)) entries0 hc hcmp]
        refine Or.inr (Or.inr ?_)
        refine ⟨if s.ensureWeeklyNoteHeadingExists ∧ present = false then
          heading ++ str "\n" else [],
          blockTextOf M s (mapSet entries0 b d) d ++
            (if (blockTextOf M s (mapSet entries0 b d) d).length > 0 then ['\n']
             else []), ?_, ?_⟩
        · by_cases hh : s.ensureWeeklyNoteHeadingExists ∧ present = false
          · rw [if_pos hh]
            exact Or.inr rfl
          · rw [if_neg hh]
            exact Or.inl rfl
        · simp only [upsertUpdatedText]
          rw [rewrittenDocOf_shape]
          by_cases hh : s.ensureWeeklyNoteHeadingExists ∧ present = false
          · rw [if_pos hh, if_pos hh]
          · rw [if_neg hh, if_neg hh]
            simp
      · rw [upsertGo3_rewrite_unchanged s M heading d b raw false present
          (some (bf, body, af)) entries0 hc hcmp]
        exact Or.inl rfl
  · rw [remove_some_eq M pd s raw d nm (bf, body, af) hS hE hfb]
    set m := buildEntriesSkipping pd nm body with hm
    set cnt := (extractLinks body).length with hcnt
    by_cases hn : m.length = cnt ∧ cnt > 0
    · rw [removeGo_noop M s d raw bf body af m cnt hn]
      exact Or.inl rfl
    · by_cases hcmp : normalizeContent raw ≠ normalizeContent
        (rewrittenDocOf s bf (blockTextOf M s m d) af)
      · rw [removeGo_changed M s d raw bf body af m cnt hn hcmp]
        refine Or.inr ⟨blockTextOf M s m d ++
          (if (blockTextOf M s m d).length > 0 then ['\n'] else []), ?_⟩
        rw [rewrittenDocOf_shape]
      · rw [removeGo_unchanged M s d raw bf body af m cnt hn hcmp]
        exact Or.inl rfl

set_option maxRecDepth 4000 in
/-- Witness for C2 at the concrete configuration and a reconciled document. -/
theorem region_isolation_witness :
    ((addOrUpdateLinkInWeeklyNote M0 pd0 cfg0 (some doc01) 5 (str "2025-05-13")).doc
        = some doc01 ∨
     (addOrUpdateLinkInWeeklyNote M0 pd0 cfg0 (some doc01) 5 (str "2025-05-13")).doc =
       some (mainHeadingOf M0 cfg0 5 ++ str "\n" ++ doc01) ∨
     ∃ hp R, (hp = [] ∨ hp = mainHeadingOf M0 cfg0 5 ++ str "\n") ∧
       (addOrUpdateLinkInWeeklyNote M0 pd0 cfg0 (some doc01) 5 (str "2025-05-13")).doc =
         some (normalizeContent (hp ++ str "# Weekly Log\n\n## Daily Notes\n\n" ++
           cfg0.linksStartDelimiter ++ ['\n'] ++ R ++ cfg0.linksEndDelimiter ++
           str "\n"))) ∧
    ((removeLinkFromWeeklyNote M0 pd0 cfg0 (some doc01) 5 b0).doc = some doc01 ∨
     ∃ R, (removeLinkFromWeeklyNote M0 pd0 cfg0 (some doc01) 5 b0).doc =
       some (normalizeContent (str "# Weekly Log\n\n## Daily Notes\n\n" ++
         cfg0.linksStartDelimiter ++ ['\n'] ++ R ++ cfg0.linksEndDelimiter ++
         str "\n"))) :=
  region_isolation M0 pd0 cfg0 doc01 (str "# Weekly Log\n\n## Daily Notes\n\n")
    (str "- ![[2025-05-12]]") (str "\n") 5 (str "2025-05-13") b0 rfl rfl (by decide)

/-!
### Lemmas about locating the managed region (claim C6)
-/
theorem isPrefixOf_append_ext {p u v : Str} (h : p.isPrefixOf u = true) :
    p.isPrefixOf (u ++ v) = true := by
  rw [List.isPrefixOf_iff_prefix] at h ⊢
  exact h.trans (List.prefix_append u v)

theorem eq_append_of_isPrefixOf {p t : Str} (h : p.isPrefixOf t = true) :
    t = p ++ t.drop p.length := by
  rw [List.isPrefixOf_iff_prefix] at h
  rcases h with ⟨u, hu⟩
  rw [← hu]
  simp

theorem hasSub_cons_false {pat : Str} {c : Char} {r : Str}
    (h : hasSub pat (c :: r) = false) :
    pat.isPrefixOf (c :: r) = false ∧ hasSub pat r = false := by
  unfold hasSub at h
  rcases Bool.or_eq_false_iff.mp h with ⟨h1, h2⟩
  exact ⟨h1, h2⟩

theorem hasSub_empty_false {pat : Str} (hne : pat ≠ []) :
    hasSub pat [] = false := by
  unfold hasSub
  simpa using hne

theorem searchEnd_none_of_not_hasSub {END r : Str} (hne : END ≠ [])
    (h : hasSub END r = false) : searchEnd END r = none := by
  induction r with
  | nil =>
    unfold searchEnd
    rw [if_neg]
    simpa [List.isEmpty_iff] using hne
  | cons c r ih =>
    rcases hasSub_cons_false h with ⟨h1, h2⟩
    unfold searchEnd
    rw [if_neg, if_neg, ih h2]
    · rfl
    · rw [h1]; simp
    · rintro ⟨-, hpre⟩
      have hs : hasSub END r = true := by
        cases r with
        | nil =>
          have : END = [] := by simpa [List.isPrefixOf_iff_prefix] using hpre
          exact absurd this hne
        | cons c2 r2 =>
          unfold hasSub
          rw [hpre]
          rfl
      rw [hs] at h2
      exact absurd h2 (by simp)

theorem splitFirst_parts {pat t bf rest : Str} (hne : pat ≠ [])
    (h : splitFirst pat t = some (bf, rest)) :
    t = bf ++ pat ++ rest ∧ hasSub pat bf = false := by
  induction t generalizing bf with
  | nil =>
    unfold splitFirst at h
    rw [if_neg (by simpa [List.isEmpty_iff] using hne)] at h
    exact absurd h (by simp)
  | cons c r ih =>
    unfold splitFirst at h
    split at h
    next hpre =>
      have he := Option.some.inj h
      have hbf : bf = [] := (congrArg Prod.fst he).symm
      have hrest : rest = (c :: r).drop pat.length := (congrArg Prod.snd he).symm
      subst hbf
      subst hrest
      exact ⟨by simpa using eq_append_of_isPrefixOf hpre, hasSub_empty_false hne⟩
    next hpre =>
      rcases Option.map_eq_some'.mp h with ⟨⟨bf', rest'⟩, hsp, hmk⟩
      have hbf : bf = c :: bf' := (congrArg Prod.fst hmk).symm
      have hrest : rest' = rest := congrArg Prod.snd hmk
      subst hbf
      subst hrest
      rcases ih hsp with ⟨hrec, hsub⟩
      constructor
      · rw [List.cons_append, List.cons_append, ← hrec]
      · unfold hasSub
        rw [hsub]
        have hpf : pat.isPrefixOf (c :: bf') = false := by
          by_contra hx
          have hx' : pat.isPrefixOf (c :: bf') = true := by
            revert hx
            cases pat.isPrefixOf (c :: bf') <;> simp
          have hext := isPrefixOf_append_ext (v := pat ++ rest') hx'
          rw [show (c :: bf') ++ (pat ++ rest') = c :: r from by
            rw [List.cons_append, hrec]; simp] at hext
          simp [hext] at hpre
        rw [hpf]
        rfl

theorem searchEnd_parts {END r body after : Str} (hne : END ≠ [])
    (h : searchEnd END r = some (body, after)) :
    (r = body ++ END ++ after ∨ r = body ++ '\n' :: (END ++ after)) ∧
      hasSub END body = false := by
  induction r generalizing body with
  | nil =>
    unfold searchEnd at h
    rw [if_neg (by simpa [List.isEmpty_iff] using hne)] at h
    exact absurd h (by simp)
  | cons c r ih =>
    unfold searchEnd at h
    split at h
    next hc =>
      have he := Option.some.inj h
      have hbody : body = [] := (congrArg Prod.fst he).symm
      have hafter : after = r.drop END.length := (congrArg Prod.snd he).symm
      subst hbody
      subst hafter
      refine ⟨Or.inr ?_, hasSub_empty_false hne⟩
      rw [hc.1]
      simpa using congrArg (fun t => '\n' :: t) (eq_append_of_isPrefixOf hc.2)
    next hc =>
      split at h
      next hpre =>
        have he := Option.some.inj h
        have hbody : body = [] := (congrArg Prod.fst he).symm
        have hafter : after = (c :: r).drop END.length := (congrArg Prod.snd he).symm
        subst hbody
        subst hafter
        exact ⟨Or.inl (by simpa using eq_append_of_isPrefixOf hpre), hasSub_empty_false hne⟩
      next hpre =>
        rcases Option.map_eq_some'.mp h with ⟨⟨body', after'⟩, hse, hmk⟩
        have hbody : body = c :: body' := (congrArg Prod.fst hmk).symm
        have hafter : after' = after := congrArg Prod.snd hmk
        subst hbody
        subst hafter
        rcases ih hse with ⟨hrec, hsub⟩
        have hpre' : END.isPrefixOf (c :: r) = false := by
          by_contra hx
          exact hpre (by revert hx; cases END.isPrefixOf (c :: r) <;> simp)
        constructor
        · rcases hrec with hrec | hrec
          · exact Or.inl (by rw [List.cons_append, List.cons_append, ← hrec])
          · exact Or.inr (by rw [List.cons_append, ← hrec])
        
        · unfold hasSub
          rw [hsub]
          have hpf : END.isPrefixOf (c :: body') = false := by
            by_contra hx
            have hx' : END.isPrefixOf (c :: body') = true := by
              revert hx
              cases END.isPrefixOf (c :: body') <;> simp
            rcases hrec with hrec | hrec
            · have hext := isPrefixOf_append_ext (v := END ++ after') hx'
              rw [show (c :: body') ++ (END ++ after') = c :: r from by
                rw [List.cons_append, hrec]; simp] at hext
              rw [hext] at hpre'
              exact absurd hpre' (by simp)
            · have hext := isPrefixOf_append_ext (v := '\n' :: (END ++ after')) hx'
              rw [show (c :: body') ++ ('\n' :: (END ++ after')) = c :: r from by
                rw [List.cons_append, hrec]] at hext
              rw [hext] at hpre'
              exact absurd hpre' (by simp)
          rw [hpf]
          rfl

theorem findBlock_parts {START END raw bf body af : Str}
    (hS : START ≠ []) (hE : END ≠ [])
    (h : findBlock START END raw = some (bf, body, af)) :
    ∃ d1 d2 : Str, (d1 = [] ∨ d1 = ['\n']) ∧ (d2 = [] ∨ d2 = ['\n']) ∧
      raw = bf ++ START ++ d1 ++ body ++ d2 ++ END ++ af ∧
      hasSub START bf = false ∧ hasSub END body = false := by
  unfold findBlock at h
  split at h
  next => exact absurd h (by simp)
  next bf' rest0 hsp =>
    rcases Option.map_eq_some'.mp h with ⟨⟨body', af'⟩, hfound, hmk⟩
    have hbf : bf = bf' := (congrArg Prod.fst hmk).symm
    have hbody : body = body' := (congrArg (fun p => p.2.1) hmk).symm
    have haf : af = af' := (congrArg (fun p => p.2.2) hmk).symm
    subst hbf
    subst hbody
    subst haf
    rcases splitFirst_parts hS hsp with ⟨hraw, hsubS⟩
    have hfromSE : ∀ r0 : Str, searchEnd END r0 = some (body, af) →
        ∃ dl d2x : Str, (dl = [] ∨ dl = ['\n']) ∧ (d2x = [] ∨ d2x = ['\n']) ∧
          r0 = dl ++ body ++ d2x ++ END ++ af ∧ hasSub END body = false := by
      intro r0 hr0
      rcases searchEnd_parts hE hr0 with ⟨hrec, hsub⟩
      rcases hrec with hrec | hrec
      · exact ⟨[], [], Or.inl rfl, Or.inl rfl, by simpa using hrec, hsub⟩
      · exact ⟨[], ['\n'], Or.inl rfl, Or.inr rfl,
          by simpa [List.append_assoc] using hrec, hsub⟩
    have hfin : ∃ dl d2x : Str, (dl = [] ∨ dl = ['\n']) ∧
        (d2x = [] ∨ d2x = ['\n']) ∧
        rest0 = dl ++ body ++ d2x ++ END ++ af ∧ hasSub END body = false := by
      rcases hr : rest0 with _ | ⟨c0, r1⟩
      · rw [hr] at hfound
        simp only at hfound
        exact hfromSE [] hfound
      · rw [hr] at hfound
        simp only at hfound
        by_cases hc0 : c0 = '\n'
        · rw [if_pos hc0] at hfound
          rcases hse1 : searchEnd END r1 with _ | p1
          · rw [hse1] at hfound
            simp only at hfound
            exact hfromSE (c0 :: r1) hfound
          · rw [hse1] at hfound
            simp only at hfound
            have hp1 : p1 = (body, af) := Option.some.inj hfound
            rw [hp1] at hse1
            rcases searchEnd_parts hE hse1 with ⟨hrec, hsub⟩
            subst hc0
            rcases hrec with hrec | hrec
            · exact ⟨['\n'], [], Or.inr rfl, Or.inl rfl, by rw [hrec]; simp, hsub⟩
            · exact ⟨['\n'], ['\n'], Or.inr rfl, Or.inr rfl,
                by rw [hrec]; simp [List.append_assoc], hsub⟩
        · rw [if_neg hc0] at hfound
          exact hfromSE (c0 :: r1) hfound
    rcases hfin with ⟨dl, d2x, hdl, hd2, hrest0, hsubE⟩
    refine ⟨dl, d2x, hdl, hd2, ?_, hsubS, hsubE⟩
    rw [hraw, hrest0]
    simp [List.append_assoc]

theorem findBlock_none_of_noEnd {START END raw bf rest : Str} (hE : END ≠ [])
    (hsp : splitFirst START raw = some (bf, rest))
    (hno : hasSub END rest = false) :
    findBlock START END raw = none := by
  unfold findBlock
  rw [hsp]
  simp only
  rcases hr : rest with _ | ⟨c0, r1⟩
  · rw [hr] at hno
    dsimp only
    rw [searchEnd_none_of_not_hasSub hE hno]
    rfl
  · rw [hr] at hno
    dsimp only
    by_cases hc0 : c0 = '\n'
    · rw [if_pos hc0]
      rw [searchEnd_none_of_not_hasSub hE (hasSub_cons_false hno).2]
      rw [searchEnd_none_of_not_hasSub hE hno]
      rfl
    · rw [if_neg hc0]
      rw [searchEnd_none_of_not_hasSub hE hno]
      rfl


/-- The insertion base is the document after at most the section-heading
append; its first component is otherwise untouched. -/
theorem insertPointOf_fst (s : Settings) (present : Bool) (base : Str) :
    (insertPointOf s present base).1 = base ∨
    (insertPointOf s present base).1 = sectionAppendText s base := by
  unfold insertPointOf
  by_cases h1 : ¬s.weeklyNoteLinksSectionHeading.isEmpty
  · rw [if_pos h1]
    rcases sectionFind (jsTrim s.weeklyNoteLinksSectionHeading) base
      with _ | q
    · exact Or.inr rfl
    · exact Or.inl rfl
  · rw [if_neg h1]
    by_cases h2 : present = true ∨
        (s.ensureWeeklyNoteHeadingExists ∧ present = false)
    · rw [if_pos h2]
      rcases findNl base with _ | i
      · exact Or.inl rfl
      · exact Or.inl rfl
    · rw [if_neg h2]
      exact Or.inl rfl

/-- The region-creating path in closed form: the base split at the
insertion point with the single delimiter block in between. -/
theorem insertedDocOf_eq (s : Settings) (present : Bool) (base nt : Str) :
    insertedDocOf s present base nt =
      (insertPointOf s present base).1.take (insertPointOf s present base).2 ++
        (if (insertPointOf s present base).2 > 0 ∧
            ¬(str "\n\n").isSuffixOf ((insertPointOf s present base).1.take
              (insertPointOf s present base).2) ∧
            ¬(str "\n").isSuffixOf ((insertPointOf s present base).1.take
              (insertPointOf s present base).2) then ['\n'] else []) ++
        s.linksStartDelimiter ++ '\n' ::
          (nt ++ (if nt.length > 0 then ['\n'] else []) ++
            (s.linksEndDelimiter ++ '\n' ::
              (insertPointOf s present base).1.drop
                (insertPointOf s present base).2)) := by
  unfold insertedDocOf blockToInsertOf
  simp [List.append_assoc]

/-- With no region present, the upsert writes (or leaves in place) exactly
the base document — the raw text after at most the permitted heading
prepend and section-heading append — split at one point, with one
`START (newline) renderedText (newline?) END newline` block between the two
halves; when it skips the write, the unchanged document already normalizes
to that single-pair form. -/
theorem upsert_noBlock_structure (M : MomentOps) (pd : Str → Option Int)
    (s : Settings) (raw : Str) (d : Int) (b : Str)
    (hS : s.linksStartDelimiter.isEmpty = false)
    (hE : s.linksEndDelimiter.isEmpty = false)
    (hfb : findBlock s.linksStartDelimiter s.linksEndDelimiter raw = none) :
    ∃ base pre post nl n1 : Str,
      (base = raw ∨ base = mainHeadingOf M s d ++ str "\n" ++ raw ∨
       base = sectionAppendText s raw ∨
       base = sectionAppendText s (mainHeadingOf M s d ++ str "\n" ++ raw)) ∧
      pre ++ post = base ∧
      (nl = [] ∨ nl = ['\n']) ∧ (n1 = [] ∨ n1 = ['\n']) ∧
      ((addOrUpdateLinkInWeeklyNote M pd s (some raw) d b).doc =
        some (normalizeContent (pre ++ nl ++ s.linksStartDelimiter ++ '\n' ::
          (blockTextOf M s (mapSet [] b d) d ++ n1 ++
            (s.linksEndDelimiter ++ '\n' :: post)))) ∨
       ((addOrUpdateLinkInWeeklyNote M pd s (some raw) d b).doc = some raw ∧
        normalizeContent raw =
          normalizeContent (pre ++ nl ++ s.linksStartDelimiter ++ '\n' ::
            (blockTextOf M s (mapSet [] b d) d ++ n1 ++
              (s.linksEndDelimiter ++ '\n' :: post))))) := by
  rw [addOrUpdate_some_eq M pd s raw d b hS hE, upsertGo2_eq, hfb]
  set heading := mainHeadingOf M s d with hhead
  set present := hasSub (firstLineOf (jsTrim heading)) raw with hpres
  set nt := blockTextOf M s (mapSet [] b d) d with hnt
  set raw2 := (if s.ensureWeeklyNoteHeadingExists ∧ present = false then
    heading ++ str "\n" ++ raw else raw) with hraw2
  set cp := insertPointOf s present raw2 with hcp
  have hnc : ¬noopCond s M d b none [] := by
    rintro ⟨-, hsome, -⟩
    simp at hsome
  have hupd : upsertUpdatedText s M heading d b raw present none [] =
      cp.1.take cp.2 ++
        (if cp.2 > 0 ∧ ¬(str "\n\n").isSuffixOf (cp.1.take cp.2) ∧
            ¬(str "\n").isSuffixOf (cp.1.take cp.2) then ['\n'] else []) ++
        s.linksStartDelimiter ++ '\n' ::
          (nt ++ (if nt.length > 0 then ['\n'] else []) ++
            (s.linksEndDelimiter ++ '\n' :: cp.1.drop cp.2)) := by
    have h1 : upsertUpdatedText s M heading d b raw present none [] =
        insertedDocOf s present raw2 nt := by
      simp only [upsertUpdatedText]
    rw [h1, insertedDocOf_eq, ← hcp]
  refine ⟨cp.1, cp.1.take cp.2, cp.1.drop cp.2,
    (if cp.2 > 0 ∧ ¬(str "\n\n").isSuffixOf (cp.1.take cp.2) ∧
        ¬(str "\n").isSuffixOf (cp.1.take cp.2) then ['\n'] else []),
    (if nt.length > 0 then ['\n'] else []),
    ?_, List.take_append_drop _ _, ?_, ?_, ?_⟩
  · have h := insertPointOf_fst s present raw2
    rw [← hcp] at h
    by_cases hc : s.ensureWeeklyNoteHeadingExists ∧ present = false
    · rw [hraw2, if_pos hc] at h
      rcases h with h | h
      · exact Or.inr (Or.inl h)
      · exact Or.inr (Or.inr (Or.inr h))
    · rw [hraw2, if_neg hc] at h
      rcases h with h | h
      · exact Or.inl h
      · exact Or.inr (Or.inr (Or.inl h))
  · by_cases hc : cp.2 > 0 ∧ ¬(str "\n\n").isSuffixOf (cp.1.take cp.2) ∧
        ¬(str "\n").isSuffixOf (cp.1.take cp.2)
    · rw [if_pos hc]
      exact Or.inr rfl
    · rw [if_neg hc]
      exact Or.inl rfl
  · by_cases hc : nt.length > 0
    · rw [if_pos hc]
      exact Or.inr rfl
    · rw [if_neg hc]
      exact Or.inl rfl
  · by_cases hcmp : normalizeContent raw ≠
        normalizeContent (upsertUpdatedText s M heading d b raw present none [])
    · rw [upsertGo3_rewrite_changed s M heading d b raw false present none []
        hnc hcmp]
      left
      rw [← hupd]
    · rw [upsertGo3_rewrite_unchanged s M heading d b raw false present none []
        hnc hcmp]
      right
      refine ⟨rfl, ?_⟩
      rw [← hupd]
      exact not_not.mp hcmp

/-!
### Claim C5
-/
set_option maxRecDepth 4000 in
/-- Counterexample to C5 as stated: for the basename `x.md`, absent from the
empty managed region of `doc00`, upserting renders the line `- ![[x.md]]`,
but the removal that follows is a silent no-op — the extraction regex parses
the link as basename `x` with an `.md` extension, which matches neither the
removal target `x.md` nor `x.md.md` — so the region keeps the line instead
of returning to its pre-upsert (empty) rendering. -/
theorem upsert_remove_not_symmetric_cex :
    (addOrUpdateLinkInWeeklyNote M0 pd0 cfg0 (some doc00) 1747008000000
        (str "x.md")).doc = some docXmd ∧
    (removeLinkFromWeeklyNote M0 pd0 cfg0 (some docXmd) 1747008000000
        (str "x.md")).doc = some docXmd ∧
    (removeLinkFromWeeklyNote M0 pd0 cfg0 (some docXmd) 1747008000000
        (str "x.md")).wrote = false ∧
    findBlock cfg0.linksStartDelimiter cfg0.linksEndDelimiter doc00 = bsplit0 ∧
    findBlock cfg0.linksStartDelimiter cfg0.linksEndDelimiter docXmd =
      some (str "# Weekly Log\n\n## Daily Notes\n\n", str "- ![[x.md]]", str "\n") := by
  refine ⟨by decide, by decide, by decide, by decide, by decide⟩

/-!
### Claim C7
-/
set_option maxRecDepth 4000 in
/-- Counterexample to C7 as stated: upserting `a` and then `a.md` leaves two
lines in the managed region, and the extraction regex reads the basename `a`
out of both (`.md` is consumed by the extension group), so the basename `a`
appears twice in the final region. -/
theorem upsert_sequence_duplicate_basename_cex :
    (addOrUpdateLinkInWeeklyNote M0 pd0 cfg0
        (addOrUpdateLinkInWeeklyNote M0 pd0 cfg0 (some doc00) 100 (str "a")).doc
        200 (str "a.md")).doc = some docAA ∧
    findBlock cfg0.linksStartDelimiter cfg0.linksEndDelimiter docAA =
      some (str "# Weekly Log\n\n## Daily Notes\n\n",
        str "- ![[a]]\n- ![[a.md]]", str "\n") ∧
    extractLinks (str "- ![[a]]\n- ![[a.md]]") = [str "a", str "a"] ∧
    ¬ (extractLinks (str "- ![[a]]\n- ![[a.md]]")).Nodup := by
  refine ⟨by decide, by decide, by decide, by decide⟩

theorem GoodChar_spec {c : Char} (h : GoodChar c = true) :
    c ≠ '\x7b' ∧ c ≠ '<' ∧ c ≠ '\r' ∧ c ≠ '\n' ∧ c ≠ '|' ∧ c ≠ ']' ∧
      c ≠ '[' ∧ c ≠ '!' := by
  refine ⟨?_, ?_, ?_, ?_, ?_, ?_, ?_, ?_⟩ <;>
    (intro hc; subst hc; exact absurd h (by decide))

theorem fmtGo_id (M : MomentOps) (d : Int) :
    ∀ (fuel : Nat) (t : Str), (∀ c ∈ t, c ≠ '\x7b') → fmtGo M d fuel t = t := by
  intro fuel
  induction fuel with
  | zero => intro t _; cases t <;> rfl
  | succ n ih =>
    intro t h
    match t with
    | [] => rfl
    | c :: rest =>
      have hc : ¬(c = '\x7b') := h c (by simp)
      show fmtGo M d (n + 1) (c :: rest) = c :: rest
      unfold fmtGo
      rw [if_neg hc, ih rest (fun x hx => h x (List.mem_cons_of_mem c hx))]

theorem replaceAllSub_basename (b : Str) :
    replaceAllSub (str "\x7b\x7bbasename\x7d\x7d") b
      (str "- ![[\x7b\x7bbasename\x7d\x7d]]") = lineOf b := rfl

/-- Under `cfg0`, a line rendered for a brace-free basename is the literal
`- ![[basename]]`, whatever the entry's date resolves to. -/
theorem renderLine_good (M : MomentOps) (entries : List (Str × Int)) (fd : Int)
    (b : Str) (hb : ∀ c ∈ b, GoodChar c = true) :
    renderLine M cfg0 entries fd b = lineOf b := by
  unfold renderLine
  have h1 : replaceAllSub (str "\x7b\x7bbasename\x7d\x7d") b
      cfg0.weeklyNoteLinkFormat = lineOf b := replaceAllSub_basename b
  rw [h1]
  unfold formatDateWithCustomTokens
  apply fmtGo_id
  intro c hc
  unfold lineOf at hc
  rcases List.mem_append.mp hc with hc2 | hc2
  · rcases List.mem_append.mp hc2 with hc3 | hc3
    · fin_cases hc3 <;> decide
    · exact (GoodChar_spec (hb c hc3)).1
  · fin_cases hc2 <;> decide

theorem GoodNameB_spec {b : Str} (h : GoodNameB b = true) :
    b ≠ [] ∧ (∀ c ∈ b, GoodChar c = true) ∧
      ¬((str ".md").isSuffixOf b = true) := by
  unfold GoodNameB at h
  simp only [Bool.and_eq_true, Bool.not_eq_true', List.all_eq_true] at h
  refine ⟨?_, h.1.2, ?_⟩
  · intro he
    rw [he] at h
    exact absurd h.1.1 (by decide)
  · intro hs
    rw [hs] at h
    exact absurd h.2 (by decide)

theorem isSuffixOf_of_cons {pat r : Str} (c : Char)
    (h : pat.isSuffixOf r = true) : pat.isSuffixOf (c :: r) = true := by
  rw [List.isSuffixOf_iff_suffix] at h ⊢
  exact h.trans (List.suffix_cons c r)

theorem finishNoAlias_good {c : Char} (r : Str) (h : c ≠ ']') :
    finishNoAlias (c :: r) = none := by
  cases r with
  | nil => rfl
  | cons c2 r2 =>
    unfold finishNoAlias
    dsimp only
    exact if_neg (fun hx => h hx.1)

theorem finishAfterMd_good {c : Char} (r : Str) (hc : c ≠ '|' ∧ c ≠ ']') :
    finishAfterMd (c :: r) = none := by
  unfold finishAfterMd
  dsimp only
  have hg : ¬(c = '|' ∨ c = ']') := by
    rintro (h | h)
    · exact hc.1 h
    · exact hc.2 h
  rw [if_neg hg]
  exact finishNoAlias_good r hc.2

theorem finishAfterMd_goodChar {c : Char} (r : Str) (hc : GoodChar c = true) :
    finishAfterMd (c :: r) = none :=
  finishAfterMd_good r
    ⟨(GoodChar_spec hc).2.2.2.2.1, (GoodChar_spec hc).2.2.2.2.2.1⟩

/-- The `.md`-then-rest and plain-rest attempts both fail when the text
after the candidate capture still starts inside a good basename. -/
theorem tryFinish_mid (tail : Str) (b3 : Str) (hne : b3 ≠ [])
    (hg : ∀ c ∈ b3, GoodChar c = true) (hmd : b3 ≠ str ".md") :
    tryFinish (b3 ++ ']' :: ']' :: tail) = none := by
  rcases b3 with _ | ⟨x, b3⟩
  · exact absurd rfl hne
  rcases b3 with _ | ⟨y, b3⟩
  · show tryFinish (x :: ']' :: ']' :: tail) = none
    unfold tryFinish
    dsimp only
    rw [if_neg (by rintro ⟨-, h, -⟩; exact absurd h (by decide))]
    exact finishAfterMd_goodChar _ (hg x (by simp))
  rcases b3 with _ | ⟨z, zs⟩
  · show tryFinish (x :: y :: ']' :: (']' :: tail)) = none
    unfold tryFinish
    dsimp only
    rw [if_neg (by rintro ⟨-, -, h⟩; exact absurd h (by decide))]
    exact finishAfterMd_goodChar _ (hg x (by simp))
  show tryFinish (x :: y :: z :: (zs ++ ']' :: ']' :: tail)) = none
  unfold tryFinish
  dsimp only
  by_cases hmd3 : x = '.' ∧ y = 'm' ∧ z = 'd'
  · rw [if_pos hmd3]
    rcases zs with _ | ⟨w, ws⟩
    · obtain ⟨h1, h2, h3⟩ := hmd3
      subst h1; subst h2; subst h3
      exact absurd rfl hmd
    · rw [List.cons_append, finishAfterMd_goodChar _ (hg w (by simp))]
      exact finishAfterMd_goodChar _ (hg x (by simp))
  · rw [if_neg hmd3]
    exact finishAfterMd_goodChar _ (hg x (by simp))

/-- At the end of a good basename the rest of the pattern matches: the two
closing brackets are consumed and the text after them is returned. -/
theorem tryFinish_end (tail : Str) (htail : tail.head? ≠ some ']') :
    tryFinish (']' :: ']' :: tail) = some tail := by
  rcases tail with _ | ⟨t0, t1⟩
  · rfl
  have ht0 : ¬(t0 = ']') := fun h => htail (by rw [h]; rfl)
  show tryFinish (']' :: ']' :: t0 :: t1) = some (t0 :: t1)
  unfold tryFinish
  dsimp only
  rw [if_neg (by rintro ⟨h, -⟩; exact absurd h (by decide))]
  unfold finishAfterMd
  dsimp only
  rw [if_pos (Or.inr rfl)]
  rw [List.dropWhile_cons_of_neg (by simp)]
  dsimp only
  rw [if_neg (fun h => ht0 h.2)]
  unfold finishNoAlias
  dsimp only
  rw [if_pos ⟨rfl, rfl⟩]

/-- The lazy capture group grows through an entire good basename and stops
exactly at its end. -/
theorem tryGroup1_good (tail : Str) (htail : tail.head? ≠ some ']') :
    ∀ (b2 acc : Str), b2 ≠ [] → (∀ c ∈ b2, GoodChar c = true) →
      ¬((str ".md").isSuffixOf b2 = true) →
      tryGroup1 acc (b2 ++ ']' :: ']' :: tail) =
        some (acc.reverse ++ b2, tail) := by
  intro b2
  induction b2 with
  | nil => intro acc h; exact absurd rfl h
  | cons c b3 ih =>
    intro acc _ hg hmd
    have hcgood := hg c (by simp)
    have hne2 : ¬(c = '|' ∨ c = ']') := by
      rintro (h | h)
      · exact (GoodChar_spec hcgood).2.2.2.2.1 h
      · exact (GoodChar_spec hcgood).2.2.2.2.2.1 h
    rcases hb3 : b3 with _ | ⟨y, b4⟩
    · show tryGroup1 acc (c :: (']' :: ']' :: tail)) = _
      unfold tryGroup1
      rw [if_neg hne2, tryFinish_end tail htail]
      simp
    · subst hb3
      show tryGroup1 acc (c :: ((y :: b4) ++ ']' :: ']' :: tail)) = _
      unfold tryGroup1
      rw [if_neg hne2]
      have hmid : tryFinish ((y :: b4) ++ ']' :: ']' :: tail) = none := by
        apply tryFinish_mid tail (y :: b4) (by simp)
          (fun x hx => hg x (by simp [hx]))
        intro hyb
        exact hmd (by rw [hyb]; exact isSuffixOf_of_cons c (by decide))
      rw [hmid]
      have := ih (c :: acc) (by simp)
        (fun x hx => hg x (by simp [hx]))
        (fun hs => hmd (isSuffixOf_of_cons c hs))
      rw [this]
      simp

/-- A link opener followed by a good basename, the two closing brackets and
a tail that does not begin with `]` matches exactly the basename. -/
theorem tryLink_good (b tail : Str) (hb : GoodNameB b = true)
    (htail : tail.head? ≠ some ']') :
    tryLink ('!' :: '[' :: '[' :: (b ++ ']' :: ']' :: tail)) =
      some (b, tail) := by
  obtain ⟨hne, hg, hmd⟩ := GoodNameB_spec hb
  unfold tryLink
  dsimp only
  rw [if_pos ⟨rfl, rfl, rfl⟩]
  have := tryGroup1_good tail htail b [] hne hg hmd
  simpa using this

theorem extractGo_nil : ∀ k, extractGo k [] = [] := by
  intro k; cases k <;> rfl

theorem extractGo_step (k : Nat) (c : Char) (rest : Str) :
    extractGo (k + 1) (c :: rest) =
      match tryLink (c :: rest) with
      | some p => p.1 :: extractGo k p.2
      | none => extractGo k rest := rfl

/-- Any two sufficient fuels give `extractGo` the same result. -/
theorem extractGo_fuel : ∀ (f1 f2 : Nat) (t : Str),
    t.length ≤ f1 → t.length ≤ f2 → extractGo f1 t = extractGo f2 t := by
  intro f1
  induction f1 with
  | zero =>
    intro f2 t h1 _
    rw [List.length_eq_zero.mp (Nat.le_zero.mp h1), extractGo_nil, extractGo_nil]
  | succ n ih =>
    intro f2 t h1 h2
    rcases t with _ | ⟨c, rest⟩
    · rw [extractGo_nil, extractGo_nil]
    rcases f2 with _ | m
    · exact absurd h2 (by simp)
    rw [extractGo_step, extractGo_step]
    simp only [List.length_cons] at h1 h2
    rcases hl : tryLink (c :: rest) with _ | p
    · dsimp only
      exact ih m rest (by omega) (by omega)
    · have := tryLink_length hl
      simp only [List.length_cons] at this
      dsimp only
      rw [ih m p.2 (by omega) (by omega)]

/-- Scanning a rendered line: the extractor skips the two leading
characters, matches the link, and resumes after it. -/
theorem extractGo_line (b tail : Str) (hb : GoodNameB b = true)
    (htail : tail.head? ≠ some ']') (fuel : Nat) :
    extractGo (fuel + 3) (lineOf b ++ tail) = b :: extractGo fuel tail := by
  have hshape : lineOf b ++ tail =
      '-' :: ' ' :: '!' :: '[' :: '[' :: (b ++ ']' :: ']' :: tail) := by
    unfold lineOf
    simp [str]
  have h1 : tryLink ('-' :: ' ' :: '!' :: '[' :: '[' :: (b ++ ']' :: ']' :: tail))
      = none := by
    unfold tryLink
    exact if_neg (by rintro ⟨h, -, -⟩; exact absurd h (by decide))
  have h2 : tryLink (' ' :: '!' :: '[' :: '[' :: (b ++ ']' :: ']' :: tail))
      = none := by
    unfold tryLink
    exact if_neg (by rintro ⟨h, -, -⟩; exact absurd h (by decide))
  have h3 : tryLink ('!' :: '[' :: '[' :: (b ++ ']' :: ']' :: tail))
      = some (b, tail) := tryLink_good b tail hb htail
  rw [hshape]
  rw [show fuel + 3 = (fuel + 2) + 1 by rfl, extractGo_step, h1]
  dsimp only
  rw [show fuel + 2 = (fuel + 1) + 1 by rfl, extractGo_step, h2]
  dsimp only
  rw [extractGo_step, h3]

theorem bodyOf_nil : bodyOf [] = [] := rfl

theorem bodyOf_single (b : Str) : bodyOf [b] = lineOf b := by
  simp [bodyOf, List.intercalate]

theorem bodyOf_cons₂ (b n2 : Str) (ns : List Str) :
    bodyOf (b :: n2 :: ns) = lineOf b ++ '\n' :: bodyOf (n2 :: ns) := by
  simp [bodyOf, List.intercalate, List.intersperse]

theorem bodyOf_shape (n : Str) (l : List Str) :
    ∃ rest, bodyOf (n :: l) = '-' :: ' ' :: rest := by
  rcases l with _ | ⟨n2, l'⟩
  · exact ⟨'!' :: '[' :: '[' :: (n ++ str "]]"), by
      rw [bodyOf_single]; unfold lineOf; simp [str]⟩
  · exact ⟨'!' :: '[' :: '[' :: (n ++ str "]]") ++ '\n' :: bodyOf (n2 :: l'), by
      rw [bodyOf_cons₂]; unfold lineOf; simp [str]⟩

/-- Round trip: the extraction regex reads back exactly the basenames whose
rendered lines make up the region body. -/
theorem extractGo_bodyOf : ∀ (names : List Str),
    (∀ b ∈ names, GoodNameB b = true) →
    ∀ fuel, (bodyOf names).length ≤ fuel → extractGo fuel (bodyOf names) = names := by
  intro names
  induction names with
  | nil => intro _ fuel _; rw [bodyOf_nil, extractGo_nil]
  | cons b ns ih =>
    intro hgood fuel hf
    have hb : GoodNameB b = true := hgood b (by simp)
    rcases ns with _ | ⟨n2, ns'⟩
    · rw [bodyOf_single] at hf ⊢
      have hlen : (lineOf b).length = b.length + 7 := by simp [lineOf, str]
      obtain ⟨k, rfl⟩ : ∃ k, fuel = k + 3 :=
        ⟨fuel - 3, by omega⟩
      have := extractGo_line b [] hb (by simp) k
      simpa [extractGo_nil] using this
    · rw [bodyOf_cons₂] at hf ⊢
      have hlen : (lineOf b).length = b.length + 7 := by simp [lineOf, str]
      have hlen2 : (lineOf b ++ '\n' :: bodyOf (n2 :: ns')).length =
          b.length + 8 + (bodyOf (n2 :: ns')).length := by
        simp [hlen]; omega
      obtain ⟨k, rfl⟩ : ∃ k, fuel = k + 3 := ⟨fuel - 3, by omega⟩
      rw [extractGo_line b ('\n' :: bodyOf (n2 :: ns')) hb (by simp) k]
      congr 1
      obtain ⟨k2, rfl⟩ : ∃ k2, k = k2 + 1 := ⟨k - 1, by omega⟩
      simp only [extractGo]
      obtain ⟨rest, hrest⟩ := bodyOf_shape n2 ns'
      rw [show tryLink ('\n' :: bodyOf (n2 :: ns')) = none by
        rw [hrest]
        unfold tryLink
        dsimp only
        exact if_neg (by rintro ⟨h, -, -⟩; exact absurd h (by decide))]
      exact ih (fun x hx => hgood x (by simp [hx])) k2 (by omega)

/-- `extractLinks` inverts `bodyOf` on good basenames. -/
theorem extract_bodyOf (names : List Str)
    (hgood : ∀ b ∈ names, GoodNameB b = true) :
    extractLinks (bodyOf names) = names :=
  extractGo_bodyOf names hgood (bodyOf names).length le_rfl

theorem isPrefixOf_cons_ne {p0 c : Char} (p' x : Str) (h : ¬(c = p0)) :
    (p0 :: p').isPrefixOf (c :: x) = false := by
  simp [List.isPrefixOf]
  intro hh
  exact absurd hh.symm h

theorem isPrefixOf_head_ne {p0 : Char} (p' t : Str) (h : t.head? ≠ some p0) :
    (p0 :: p').isPrefixOf t = false := by
  rcases t with _ | ⟨c, x⟩
  · rfl
  · exact isPrefixOf_cons_ne p' x (fun hc => h (by rw [hc]; rfl))

theorem isPrefixOf_append_self (l t : Str) : l.isPrefixOf (l ++ t) = true := by
  rw [List.isPrefixOf_iff_prefix]; exact List.prefix_append l t

/-- Splitting at the first occurrence of the start delimiter when the text
before it is free of the delimiter's first character. -/
theorem splitFirst_concat (p0 : Char) (p' rest : Str) :
    ∀ (B : Str), (∀ c ∈ B, c ≠ p0) →
    splitFirst (p0 :: p') (B ++ (p0 :: p') ++ rest) = some (B, rest) := by
  intro B
  induction B with
  | nil =>
    intro _
    show splitFirst (p0 :: p') (p0 :: (p' ++ rest)) = some ([], rest)
    unfold splitFirst
    rw [show p0 :: (p' ++ rest) = (p0 :: p') ++ rest from rfl]
    rw [if_pos (isPrefixOf_append_self (p0 :: p') rest), List.drop_left]
  | cons c B2 ih =>
    intro hB
    show splitFirst (p0 :: p') (c :: (B2 ++ (p0 :: p') ++ rest)) =
      some (c :: B2, rest)
    unfold splitFirst
    rw [isPrefixOf_cons_ne _ _ (hB c (by simp))]
    rw [if_neg (by simp)]
    rw [ih (fun x hx => hB x (by simp [hx]))]
    rfl

/-- The end-delimiter search walks an entire body free of the delimiter's
first character and stops at the newline directly before the delimiter. -/
theorem searchEnd_concat (E0 : Char) (E' A : Str) (hnl : E0 ≠ '\n') :
    ∀ (body : Str), (∀ c ∈ body, c ≠ E0) →
    searchEnd (E0 :: E') (body ++ '\n' :: ((E0 :: E') ++ A)) =
      some (body, A) := by
  intro body
  induction body with
  | nil =>
    intro _
    show searchEnd (E0 :: E') ('\n' :: ((E0 :: E') ++ A)) = some ([], A)
    unfold searchEnd
    rw [if_pos ⟨rfl, isPrefixOf_append_self (E0 :: E') A⟩, List.drop_left]
  | cons c body2 ih =>
    intro hc
    show searchEnd (E0 :: E')
        (c :: (body2 ++ '\n' :: ((E0 :: E') ++ A))) = some (c :: body2, A)
    unfold searchEnd
    have hpre : (E0 :: E').isPrefixOf (body2 ++ '\n' :: ((E0 :: E') ++ A))
        = false := by
      apply isPrefixOf_head_ne
      rcases body2 with _ | ⟨b0, body3⟩
      · intro h
        exact hnl (Option.some.inj h).symm
      · intro h
        exact (hc b0 (by simp)) (Option.some.inj h)
    rw [if_neg (by rw [hpre]; rintro ⟨-, h⟩; exact absurd h (by simp))]
    rw [isPrefixOf_cons_ne _ _ (hc c (by simp))]
    rw [if_neg (by simp)]
    rw [ih (fun x hx => hc x (by simp [hx]))]
    rfl

theorem lineOf_ne {b : Str} (hb : ∀ x ∈ b, GoodChar x = true) :
    ∀ c ∈ lineOf b, c ≠ '<' ∧ c ≠ '\r' := by
  intro c hc
  unfold lineOf at hc
  rw [show str "- ![[" = (['-', ' ', '!', '[', '['] : Str) from rfl,
    show str "]]" = ([']', ']'] : Str) from rfl] at hc
  rcases List.mem_append.mp hc with h | h
  · rcases List.mem_append.mp h with h2 | h2
    · simp only [List.mem_cons, List.not_mem_nil, or_false] at h2
      rcases h2 with rfl | rfl | rfl | rfl | rfl <;> exact ⟨by decide, by decide⟩
    · exact ⟨(GoodChar_spec (hb c h2)).2.1, (GoodChar_spec (hb c h2)).2.2.1⟩
  · simp only [List.mem_cons, List.not_mem_nil, or_false] at h
    rcases h with rfl | rfl <;> exact ⟨by decide, by decide⟩

/-- Characters of a rendered region body are never `<` or a carriage
return. -/
theorem bodyOf_ne : ∀ (names : List Str), (∀ b ∈ names, GoodNameB b = true) →
    ∀ c ∈ bodyOf names, c ≠ '<' ∧ c ≠ '\r' := by
  intro names
  induction names with
  | nil => intro _ c hc; rw [bodyOf_nil] at hc; cases hc
  | cons b ns ih =>
    intro hN c hc
    have hbgood : ∀ x ∈ b, GoodChar x = true :=
      (GoodNameB_spec (hN b (by simp))).2.1
    rcases ns with _ | ⟨n2, ns2⟩
    · rw [bodyOf_single] at hc
      exact lineOf_ne hbgood c hc
    · rw [bodyOf_cons₂] at hc
      rcases List.mem_append.mp hc with h | h
      · exact lineOf_ne hbgood c h
      · rcases List.mem_cons.mp h with h2 | h2
        · rw [h2]; exact ⟨by decide, by decide⟩
        · exact ih (fun x hx => hN x (by simp [hx])) c h2

/-- The block regex recovers the three parts of a canonical document: the
text before the start delimiter, the rendered body, and the text after the
end delimiter. -/
theorem findBlock_docOf (B A : Str) (names : List Str)
    (hB : ∀ c ∈ B, c ≠ '<')
    (hN : ∀ b ∈ names, GoodNameB b = true) :
    findBlock cfg0.linksStartDelimiter cfg0.linksEndDelimiter (docOf B A names) =
      some (B, bodyOf names, A) := by
  have hsearch : searchEnd cfg0.linksEndDelimiter
      (blockOf names ++ (cfg0.linksEndDelimiter ++ A)) =
      some (bodyOf names, A) := by
    rcases names with _ | ⟨n1, ns⟩
    · show searchEnd cfg0.linksEndDelimiter
        ([] ++ (cfg0.linksEndDelimiter ++ A)) = some ([], A)
      rw [List.nil_append]
      show searchEnd ('<' :: str "!-- DAILY LINKS END -->")
        (('<' :: str "!-- DAILY LINKS END -->") ++ A) = some ([], A)
      rw [List.cons_append]
      unfold searchEnd
      rw [if_neg (by rintro ⟨h, -⟩; exact absurd h (by decide))]
      rw [← List.cons_append]
      rw [if_pos (isPrefixOf_append_self _ A), List.drop_left]
    · rw [show blockOf (n1 :: ns) = bodyOf (n1 :: ns) ++ ['\n'] from by
        unfold blockOf; rw [if_neg (by simp)]]
      rw [List.append_assoc]
      rw [show (['\n'] : Str) ++ (cfg0.linksEndDelimiter ++ A) =
        '\n' :: (cfg0.linksEndDelimiter ++ A) from rfl]
      show searchEnd ('<' :: str "!-- DAILY LINKS END -->") _ = _
      exact searchEnd_concat '<' (str "!-- DAILY LINKS END -->") A (by decide)
        (bodyOf (n1 :: ns)) (fun c hc => (bodyOf_ne (n1 :: ns) hN c hc).1)
  show findBlock ('<' :: str "!-- DAILY LINKS START -->")
      cfg0.linksEndDelimiter (docOf B A names) = _
  unfold findBlock
  rw [show docOf B A names = B ++ ('<' :: str "!-- DAILY LINKS START -->") ++
      ('\n' :: (blockOf names ++ (cfg0.linksEndDelimiter ++ A))) from rfl]
  rw [splitFirst_concat '<' (str "!-- DAILY LINKS START -->")
    ('\n' :: (blockOf names ++ (cfg0.linksEndDelimiter ++ A))) B hB]
  dsimp only
  rw [if_pos rfl, hsearch]
  rfl

theorem any_key_iff (m : List (Str × Int)) (k : Str) :
    (m.any (fun p => p.1 = k) = true) ↔ k ∈ m.map Prod.fst := by
  rw [List.any_eq_true]
  constructor
  · rintro ⟨q, hq, hqk⟩
    exact List.mem_map.mpr ⟨q, hq, by simpa using hqk⟩
  · intro hk
    obtain ⟨q, hq, hqk⟩ := List.mem_map.mp hk
    exact ⟨q, hq, by simpa using hqk⟩

theorem mapSet_fresh (m : List (Str × Int)) (k : Str) (v : Int)
    (h : ¬ k ∈ m.map Prod.fst) : mapSet m k v = m ++ [(k, v)] := by
  unfold mapSet
  rw [if_neg (fun hx => h ((any_key_iff m k).mp hx))]

theorem mapSet_keys (m : List (Str × Int)) (k : Str) (v : Int) :
    (mapSet m k v).map Prod.fst =
      if k ∈ m.map Prod.fst then m.map Prod.fst else m.map Prod.fst ++ [k] := by
  by_cases h : k ∈ m.map Prod.fst
  · rw [if_pos h]
    unfold mapSet
    rw [if_pos ((any_key_iff m k).mpr h), List.map_map]
    apply List.map_congr_left
    intro p _
    by_cases hpk : p.1 = k
    · simp [hpk]
    · simp [hpk]
  · rw [if_neg h, mapSet_fresh m k v h]
    simp

theorem mapSet_mem (m : List (Str × Int)) (k : Str) (v : Int) :
    ∀ p ∈ mapSet m k v, (p.1 = k ∧ p.2 = v) ∨ (¬(p.1 = k) ∧ p ∈ m) := by
  intro p hp
  unfold mapSet at hp
  by_cases h : m.any (fun q => q.1 = k) = true
  · rw [if_pos h] at hp
    obtain ⟨q, hq, heq⟩ := List.mem_map.mp hp
    by_cases hqk : q.1 = k
    · rw [if_pos hqk] at heq
      left
      rw [← heq]
      exact ⟨rfl, rfl⟩
    · rw [if_neg hqk] at heq
      right
      rw [← heq]
      exact ⟨hqk, hq⟩
  · rw [if_neg h] at hp
    rcases List.mem_append.mp hp with h2 | h2
    · right
      refine ⟨?_, h2⟩
      intro hpk
      exact h ((any_key_iff m k).mpr (List.mem_map.mpr ⟨p, h2, hpk⟩))
    · left
      rw [List.mem_singleton] at h2
      rw [h2]
      exact ⟨rfl, rfl⟩

theorem buildEntries_aux (pd : Str → Option Int) :
    ∀ (names : List Str) (acc : List (Str × Int)), names.Nodup →
    (∀ n ∈ names, ¬ n ∈ acc.map Prod.fst) →
    names.foldl (fun m b => mapSet m b ((pd b).getD 0)) acc =
      acc ++ names.map (fun n => (n, (pd n).getD 0)) := by
  intro names
  induction names with
  | nil => intro acc _ _; simp
  | cons n ns ih =>
    intro acc hnd hfresh
    simp only [List.foldl_cons]
    rw [mapSet_fresh acc n _ (hfresh n (by simp))]
    rw [ih (acc ++ [(n, (pd n).getD 0)]) hnd.of_cons ?_]
    · simp
    · intro x hx
      simp only [List.map_append, List.mem_append, List.map_cons,
        List.map_nil, List.mem_singleton]
      rintro (h | h)
      · exact hfresh x (by simp [hx]) h
      · exact (List.nodup_cons.mp hnd).1 (h ▸ hx)

/-- Collecting the entries of a rendered body with pairwise-distinct good
basenames reproduces the basenames in order, each with its re-parsed date
(or the epoch sentinel `0`). -/
theorem buildEntries_bodyOf (pd : Str → Option Int) (names : List Str)
    (hN : ∀ b ∈ names, GoodNameB b = true) (hnd : names.Nodup) :
    buildEntries pd (bodyOf names) =
      names.map (fun n => (n, (pd n).getD 0)) := by
  unfold buildEntries
  rw [extract_bodyOf names hN]
  have := buildEntries_aux pd names [] hnd (by simp)
  simpa using this

theorem buildEntriesSkipping_aux (pd : Str → Option Int) (nm : Str) :
    ∀ (names : List Str) (acc : List (Str × Int)), names.Nodup →
    (∀ n ∈ names, ¬ n ∈ acc.map Prod.fst) →
    names.foldl
      (fun m b => if b = nm then m else mapSet m b ((pd b).getD 0)) acc =
      acc ++ (names.filter (fun n => n ≠ nm)).map
        (fun n => (n, (pd n).getD 0)) := by
  intro names
  induction names with
  | nil => intro acc _ _; simp
  | cons n ns ih =>
    intro acc hnd hfresh
    simp only [List.foldl_cons]
    by_cases hn : n = nm
    · rw [if_pos hn, List.filter_cons_of_neg (by simp [hn])]
      exact ih acc hnd.of_cons (fun x hx => hfresh x (by simp [hx]))
    · rw [if_neg hn, mapSet_fresh acc n _ (hfresh n (by simp))]
      rw [List.filter_cons_of_pos (by simp [hn])]
      rw [ih (acc ++ [(n, (pd n).getD 0)]) hnd.of_cons ?_]
      · simp
      · intro x hx
        simp only [List.map_append, List.mem_append, List.map_cons,
          List.map_nil, List.mem_singleton]
        rintro (h | h)
        · exact hfresh x (by simp [hx]) h
        · exact (List.nodup_cons.mp hnd).1 (h ▸ hx)

/-- The removal loop over a rendered body keeps, in order, exactly the
entries whose basename differs from the one being removed. -/
theorem buildEntriesSkipping_bodyOf (pd : Str → Option Int) (nm : Str)
    (names : List Str) (hN : ∀ b ∈ names, GoodNameB b = true)
    (hnd : names.Nodup) :
    buildEntriesSkipping pd nm (bodyOf names) =
      (names.filter (fun n => n ≠ nm)).map (fun n => (n, (pd n).getD 0)) := by
  unfold buildEntriesSkipping
  rw [extract_bodyOf names hN]
  have := buildEntriesSkipping_aux pd nm names [] hnd (by simp)
  simpa using this

theorem insertEntry_nil (x : Str × Int) : insertEntry x [] = [x] := rfl

theorem insertEntry_cons (x y : Str × Int) (ys : List (Str × Int)) :
    insertEntry x (y :: ys) =
      if y.2 ≤ x.2 then y :: insertEntry x ys else x :: y :: ys := rfl

theorem filter_insertEntry (p : Str × Int → Bool) (x : Str × Int) :
    ∀ (s : List (Str × Int)), s.Pairwise (fun a b => a.2 ≤ b.2) →
    (insertEntry x s).filter p =
      if p x = true then insertEntry x (s.filter p) else s.filter p := by
  intro s
  induction s with
  | nil =>
    intro _
    rw [insertEntry_nil]
    show ([x] : List (Str × Int)).filter p = _
    by_cases hpx : p x = true
    · rw [if_pos hpx, List.filter_cons_of_pos hpx, List.filter_nil,
        insertEntry_nil]
    · rw [if_neg hpx, List.filter_cons_of_neg (by simpa using hpx),
        List.filter_nil]
  | cons y ys ih =>
    intro hpair
    rw [insertEntry_cons]
    by_cases hyx : y.2 ≤ x.2
    · rw [if_pos hyx, List.filter_cons]
      rw [ih hpair.of_cons]
      by_cases hpy : p y = true
      · rw [if_pos hpy, List.filter_cons_of_pos hpy]
        by_cases hpx : p x = true
        · rw [if_pos hpx, if_pos hpx, insertEntry_cons, if_pos hyx]
        · rw [if_neg hpx, if_neg hpx]
      · rw [if_neg hpy, List.filter_cons_of_neg (by simpa using hpy)]
    · rw [if_neg hyx, List.filter_cons]
      by_cases hpx : p x = true
      · rw [if_pos hpx, if_pos hpx]
        rcases hf : (y :: ys).filter p with _ | ⟨z, zs⟩
        · rw [insertEntry_nil]
        · have hz2 : z ∈ y :: ys :=
            List.mem_of_mem_filter (by rw [hf]; exact List.mem_cons_self z zs)
          have hyz : y.2 ≤ z.2 := by
            rcases List.mem_cons.mp hz2 with h | h
            · rw [h]
            · exact List.rel_of_pairwise_cons hpair h
          rw [insertEntry_cons, if_neg (by omega)]
      · rw [if_neg hpx, if_neg hpx]

theorem filter_sortEntries_aux (p : Str × Int → Bool) :
    ∀ (l acc : List (Str × Int)), acc.Pairwise (fun a b => a.2 ≤ b.2) →
    (l.foldl (fun a x => insertEntry x a) acc).filter p =
      (l.filter p).foldl (fun a x => insertEntry x a) (acc.filter p) := by
  intro l
  induction l with
  | nil => intro acc _; rfl
  | cons x xs ih =>
    intro acc hacc
    simp only [List.foldl_cons, List.filter_cons]
    rw [ih (insertEntry x acc) (insertEntry_pairwise x acc hacc)]
    rw [filter_insertEntry p x acc hacc]
    by_cases hpx : p x = true
    · rw [if_pos hpx, if_pos hpx, List.foldl_cons]
    · rw [if_neg hpx, if_neg hpx]

/-- JavaScript's stable sort commutes with filtering: filtering the sorted
entries is sorting the filtered entries. -/
theorem filter_sortEntries (p : Str × Int → Bool) (m : List (Str × Int)) :
    (sortEntries m).filter p = sortEntries (m.filter p) := by
  have := filter_sortEntries_aux p m [] (by simp)
  simpa [sortEntries] using this

theorem replaceCRLF_id (t : Str) (h : ∀ c ∈ t, c ≠ '\r') :
    replaceCRLF t = t := by
  unfold replaceCRLF replaceAllSub
  suffices hgen : ∀ (fuel : Nat) (u : Str), (∀ c ∈ u, c ≠ '\r') →
      replaceAllGo (str "\r\n") (str "\n") fuel u = u from hgen t.length t h
  intro fuel
  induction fuel with
  | zero => intro u _; cases u <;> rfl
  | succ n ih =>
    intro u hu
    rcases u with _ | ⟨c, rest⟩
    · rfl
    show replaceAllGo _ _ (n + 1) (c :: rest) = c :: rest
    unfold replaceAllGo
    rw [if_neg ?hneg]
    · rw [ih rest (fun x hx => hu x (by simp [hx]))]
    case hneg =>
      rintro ⟨-, hpre⟩
      rw [show str "\r\n" = ('\r' :: ['\n'] : Str) from rfl] at hpre
      rw [isPrefixOf_cons_ne _ _ (fun hc => hu c (by simp) hc)] at hpre
      exact absurd hpre (by simp)

theorem jsTrimEnd_append_of_ne (u v : Str) (hv : jsTrimEnd v ≠ []) :
    jsTrimEnd (u ++ v) = u ++ jsTrimEnd v := by
  have hv2 : (v.reverse.dropWhile isWsChar).isEmpty = false := by
    unfold jsTrimEnd at hv
    rcases hd : v.reverse.dropWhile isWsChar with _ | ⟨x, xs⟩
    · rw [hd] at hv; exact absurd rfl hv
    · rfl
  unfold jsTrimEnd
  rw [List.reverse_append, List.dropWhile_append, if_neg (by rw [hv2]; simp)]
  rw [List.reverse_append]
  simp

theorem jsTrimEnd_snoc_nonws (u : Str) (c : Char) (hc : isWsChar c = false) :
    jsTrimEnd (u ++ [c]) = u ++ [c] := by
  unfold jsTrimEnd
  rw [List.reverse_append]
  rw [show ([c] : Str).reverse = [c] from rfl, List.cons_append,
    List.nil_append]
  rw [List.dropWhile_cons_of_neg (by simp [hc])]
  simp

theorem jsTrimEnd_snoc_ws (u : Str) (c : Char) (hc : isWsChar c = true) :
    jsTrimEnd (u ++ [c]) = jsTrimEnd u := by
  unfold jsTrimEnd
  rw [List.reverse_append]
  rw [show ([c] : Str).reverse = [c] from rfl, List.cons_append,
    List.nil_append]
  rw [List.dropWhile_cons_of_pos (by simp [hc])]

theorem blockOf_cr (names : List Str) (hN : ∀ b ∈ names, GoodNameB b = true) :
    ∀ c ∈ blockOf names, c ≠ '\r' := by
  intro c hc
  unfold blockOf at hc
  split at hc
  · exact absurd hc (List.not_mem_nil c)
  · rcases List.mem_append.mp hc with h | h
    · exact (bodyOf_ne names hN c h).2
    · rw [List.mem_singleton] at h; rw [h]; decide

/-- A canonical document is already normalized: no carriage returns, and a
single trailing newline survives `trimEnd() + "\n"`. -/
theorem normalize_docOf (B A : Str) (names : List Str)
    (hB : ∀ c ∈ B, c ≠ '\r')
    (hN : ∀ b ∈ names, GoodNameB b = true)
    (hA1 : ∀ c ∈ A, c ≠ '\r')
    (hA2 : jsTrimEnd A ++ ['\n'] = A) :
    normalizeContent (docOf B A names) = docOf B A names := by
  have hdoc_cr : ∀ c ∈ docOf B A names, c ≠ '\r' := by
    intro c hc
    unfold docOf at hc
    rcases List.mem_append.mp hc with h | h
    · rcases List.mem_append.mp h with h2 | h2
      · exact hB c h2
      · intro hcr; subst hcr; revert h2; decide
    · rcases List.mem_cons.mp h with h2 | h2
      · rw [h2]; decide
      · rcases List.mem_append.mp h2 with h3 | h3
        · exact blockOf_cr names hN c h3
        · rcases List.mem_append.mp h3 with h4 | h4
          · intro hcr; subst hcr; revert h4; decide
          · exact hA1 c h4
  have hsplit : docOf B A names =
      (B ++ cfg0.linksStartDelimiter ++
        '\n' :: (blockOf names ++ cfg0.linksEndDelimiter)) ++ A := by
    unfold docOf
    simp [List.append_assoc]
  unfold normalizeContent
  rw [replaceCRLF_id _ hdoc_cr, hsplit]
  by_cases hAe : jsTrimEnd A = []
  · have hA : A = ['\n'] := by rw [← hA2, hAe]; rfl
    rw [hA]
    rw [jsTrimEnd_snoc_ws _ '\n' (by decide)]
    have hUsplit : B ++ cfg0.linksStartDelimiter ++
        '\n' :: (blockOf names ++ cfg0.linksEndDelimiter) =
        (B ++ cfg0.linksStartDelimiter ++
          '\n' :: (blockOf names ++ str "<!-- DAILY LINKS END --")) ++ ['>'] := by
      rw [show cfg0.linksEndDelimiter =
        str "<!-- DAILY LINKS END --" ++ ['>'] from rfl]
      simp [List.append_assoc]
    rw [hUsplit, jsTrimEnd_snoc_nonws _ '>' (by decide)]
  · rw [jsTrimEnd_append_of_ne _ A hAe, List.append_assoc, hA2]

theorem isPrefixOf_extend (l t v : Str) (h : l.isPrefixOf t = true) :
    l.isPrefixOf (t ++ v) = true := by
  rw [List.isPrefixOf_iff_prefix] at h ⊢
  exact h.trans (List.prefix_append t v)

theorem hasSub_of_empty (pat : Str) (h : pat.isEmpty = true) :
    ∀ w, hasSub pat w = true := by
  intro w
  cases w with
  | nil => exact h
  | cons c r =>
    unfold hasSub
    rw [List.isEmpty_iff.mp h]
    rfl

theorem hasSub_append_left (pat : Str) :
    ∀ (u v : Str), hasSub pat u = true → hasSub pat (u ++ v) = true := by
  intro u
  induction u with
  | nil =>
    intro v h
    exact hasSub_of_empty pat h v
  | cons c u2 ih =>
    intro v h
    unfold hasSub at h
    rcases Bool.or_eq_true_iff.mp h with h2 | h2
    · show hasSub pat (c :: (u2 ++ v)) = true
      unfold hasSub
      rw [show c :: (u2 ++ v) = (c :: u2) ++ v from rfl,
        isPrefixOf_extend pat (c :: u2) v h2]
      rfl
    · show hasSub pat (c :: (u2 ++ v)) = true
      unfold hasSub
      rw [ih v h2]
      simp

/-- Rendering the whole region for entries whose keys are good basenames is
`bodyOf` of the sorted key list. -/
theorem blockTextOf_good (M : MomentOps) (entries : List (Str × Int)) (fd : Int)
    (h : ∀ p ∈ entries, ∀ x ∈ p.1, GoodChar x = true) :
    blockTextOf M cfg0 entries fd =
      bodyOf ((sortEntries entries).map Prod.fst) := by
  unfold blockTextOf bodyOf
  congr 1
  apply List.map_congr_left
  intro n hn
  apply renderLine_good
  obtain ⟨p, hp, hpn⟩ := List.mem_map.mp hn
  rw [← hpn]
  exact h p ((sortEntries_perm entries).mem_iff.mp hp)

/-- The region reassembly of the rewrite paths produces exactly the
canonical document for the rendered body. -/
theorem rewrittenDocOf_eq_docOf (B A : Str) (ns : List Str) :
    rewrittenDocOf cfg0 B (bodyOf ns) A = docOf B A ns := by
  unfold rewrittenDocOf docOf blockOf
  rcases ns with _ | ⟨n1, ns2⟩
  · rw [bodyOf_nil]
    simp
  · obtain ⟨rest, hr⟩ := bodyOf_shape n1 ns2
    rw [if_pos (by rw [hr]; simp), if_neg (by simp)]
    simp [List.append_assoc]

theorem upsertNames_good (pd : Str → Option Int) (names : List Str) (b : Str)
    (d : Int) (hN : ∀ n ∈ names, GoodNameB n = true)
    (hb : GoodNameB b = true) :
    ∀ n ∈ upsertNames pd names b d, GoodNameB n = true := by
  intro n hn
  unfold upsertNames at hn
  obtain ⟨p, hp, hpn⟩ := List.mem_map.mp hn
  have hpE1 := (sortEntries_perm _).mem_iff.mp hp
  rcases mapSet_mem _ b d p hpE1 with h | h
  · rw [← hpn, h.1]; exact hb
  · obtain ⟨n2, hn2, heq⟩ := List.mem_map.mp h.2
    rw [← hpn, ← heq]
    exact hN n2 hn2

theorem map_fst_entry (pd : Str → Option Int) (names : List Str) :
    (names.map (fun n => (n, (pd n).getD 0))).map Prod.fst = names := by
  induction names with
  | nil => rfl
  | cons n ns ih => simp only [List.map_cons]; rw [ih]

theorem upsertNames_nodup (pd : Str → Option Int) (names : List Str) (b : Str)
    (d : Int) (hND : names.Nodup) : (upsertNames pd names b d).Nodup := by
  unfold upsertNames
  have hperm := (sortEntries_perm
    (mapSet (names.map (fun n => (n, (pd n).getD 0))) b d)).map Prod.fst
  rw [hperm.nodup_iff, mapSet_keys, map_fst_entry]
  by_cases hbn : b ∈ names
  · rw [if_pos hbn]; exact hND
  · rw [if_neg hbn]
    rw [List.nodup_append]
    exact ⟨hND, by simp, by simpa using hbn⟩

/-- The membership of `b` in the extracted region keys. -/
theorem any_entry_iff (pd : Str → Option Int) (names : List Str) (b : Str) :
    ((names.map (fun n => (n, (pd n).getD 0))).any (fun p => p.1 = b) = true)
      ↔ b ∈ names := by
  rw [any_key_iff, map_fst_entry]

/-- Master lemma for `addOrUpdateLinkInWeeklyNote` on a canonical document:
the early-stop, unchanged and rewrite branches expressed over the basename
lists. -/
theorem upsert_docOf (M : MomentOps) (pd : Str → Option Int) (B A : Str)
    (names : List Str) (d : Int) (b : Str)
    (hB1 : ∀ c ∈ B, c ≠ '<') (hB2 : ∀ c ∈ B, c ≠ '\r')
    (hHead : hasSub (str "# Weekly Log") B = true)
    (hA1 : ∀ c ∈ A, c ≠ '\r') (hA2 : jsTrimEnd A ++ ['\n'] = A)
    (hN : ∀ n ∈ names, GoodNameB n = true) (hND : names.Nodup)
    (hb : GoodNameB b = true) :
    addOrUpdateLinkInWeeklyNote M pd cfg0 (some (docOf B A names)) d b =
      if b ∈ names ∧ jsTrim (bodyOf names) =
          jsTrim (bodyOf (upsertNames pd names b d)) then
        ⟨some (docOf B A names), false, false, false⟩
      else if docOf B A (upsertNames pd names b d) = docOf B A names then
        ⟨some (docOf B A names), false, false, false⟩
      else
        ⟨some (docOf B A (upsertNames pd names b d)), true, true, false⟩ := by
  rw [addOrUpdate_some_eq M pd cfg0 (docOf B A names) d b (by decide)
    (by decide)]
  have hfmt : firstLineOf (jsTrim (mainHeadingOf M cfg0 d)) =
      str "# Weekly Log" := by
    have h1 : mainHeadingOf M cfg0 d = str "# Weekly Log" := by
      unfold mainHeadingOf formatDateWithCustomTokens
      exact fmtGo_id M d _ _ (by decide)
    rw [h1]
    decide
  have hpres : hasSub (firstLineOf (jsTrim (mainHeadingOf M cfg0 d)))
      (docOf B A names) = true := by
    rw [hfmt]
    rw [show docOf B A names = B ++ (cfg0.linksStartDelimiter ++
      '\n' :: (blockOf names ++ (cfg0.linksEndDelimiter ++ A))) from by
        unfold docOf; simp [List.append_assoc]]
    exact hasSub_append_left _ B _ hHead
  rw [hpres, upsertGo2_eq, findBlock_docOf B A names hB1 hN]
  show upsertGo3 cfg0 M (mainHeadingOf M cfg0 d) d b (docOf B A names) false
    true (some (B, bodyOf names, A)) (buildEntries pd (bodyOf names)) = _
  rw [buildEntries_bodyOf pd names hN hND]
  have hE1good : ∀ p ∈ mapSet (names.map (fun n => (n, (pd n).getD 0))) b d,
      ∀ x ∈ p.1, GoodChar x = true := by
    intro p hp
    rcases mapSet_mem _ b d p hp with h | h
    · rw [h.1]; exact (GoodNameB_spec hb).2.1
    · obtain ⟨n, hn, heq⟩ := List.mem_map.mp h.2
      rw [← heq]
      exact (GoodNameB_spec (hN n hn)).2.1
  have hNT : blockTextOf M cfg0
      (mapSet (names.map (fun n => (n, (pd n).getD 0))) b d) d =
      bodyOf (upsertNames pd names b d) :=
    blockTextOf_good M _ d hE1good
  by_cases hC1 : b ∈ names ∧ jsTrim (bodyOf names) =
      jsTrim (bodyOf (upsertNames pd names b d))
  · rw [if_pos hC1]
    apply upsertGo3_noop
    · exact ⟨(any_entry_iff pd names b).mpr hC1.1, rfl,
        by rw [hNT]; exact hC1.2⟩
    · rintro ⟨-, h⟩; exact absurd h (by decide)
  · rw [if_neg hC1]
    have hnoop : ¬ noopCond cfg0 M d b (some (B, bodyOf names, A))
        (names.map (fun n => (n, (pd n).getD 0))) := by
      intro hcon
      obtain ⟨h1, -, h3⟩ := hcon
      rw [hNT] at h3
      exact hC1 ⟨(any_entry_iff pd names b).mp h1, by simpa using h3⟩
    have hupd : upsertUpdatedText cfg0 M (mainHeadingOf M cfg0 d) d b
        (docOf B A names) true (some (B, bodyOf names, A))
        (names.map (fun n => (n, (pd n).getD 0))) =
        docOf B A (upsertNames pd names b d) := by
      unfold upsertUpdatedText
      dsimp only
      rw [if_neg (by rintro ⟨-, h⟩; exact absurd h (by decide))]
      rw [hNT, rewrittenDocOf_eq_docOf]
    have hnorm1 : normalizeContent (docOf B A names) = docOf B A names :=
      normalize_docOf B A names hB2 hN hA1 hA2
    have hnorm2 : normalizeContent (docOf B A (upsertNames pd names b d)) =
        docOf B A (upsertNames pd names b d) :=
      normalize_docOf B A _ hB2 (upsertNames_good pd names b d hN hb) hA1 hA2
    by_cases hC2 : docOf B A (upsertNames pd names b d) = docOf B A names
    · rw [if_pos hC2]
      rw [upsertGo3_rewrite_unchanged cfg0 M (mainHeadingOf M cfg0 d) d b
        (docOf B A names) false true (some (B, bodyOf names, A))
        (names.map (fun n => (n, (pd n).getD 0))) hnoop
        (fun hne => hne (by rw [hupd, hnorm1, hnorm2, hC2]))]
    · rw [if_neg hC2]
      rw [upsertGo3_rewrite_changed cfg0 M (mainHeadingOf M cfg0 d) d b
        (docOf B A names) false true (some (B, bodyOf names, A))
        (names.map (fun n => (n, (pd n).getD 0))) hnoop
        (by rw [hupd, hnorm1, hnorm2]; exact fun h => hC2 h.symm)]
      rw [hupd, hnorm2]

theorem removeNames_good (pd : Str → Option Int) (names : List Str) (nm : Str)
    (hN : ∀ n ∈ names, GoodNameB n = true) :
    ∀ n ∈ removeNames pd names nm, GoodNameB n = true := by
  intro n hn
  unfold removeNames at hn
  obtain ⟨p, hp, hpn⟩ := List.mem_map.mp hn
  have hpm := (sortEntries_perm _).mem_iff.mp hp
  obtain ⟨n2, hn2, heq⟩ := List.mem_map.mp hpm
  rw [← hpn, ← heq]
  exact hN n2 (List.mem_of_mem_filter hn2)

/-- Master lemma for `removeLinkFromWeeklyNote` on a canonical document:
the silent no-op, unchanged, and rewrite branches expressed over the
basename lists. -/
theorem remove_docOf (M : MomentOps) (pd : Str → Option Int) (B A : Str)
    (names : List Str) (dctx : Int) (nm : Str)
    (hB1 : ∀ c ∈ B, c ≠ '<') (hB2 : ∀ c ∈ B, c ≠ '\r')
    (hA1 : ∀ c ∈ A, c ≠ '\r') (hA2 : jsTrimEnd A ++ ['\n'] = A)
    (hN : ∀ n ∈ names, GoodNameB n = true) (hND : names.Nodup) :
    removeLinkFromWeeklyNote M pd cfg0 (some (docOf B A names)) dctx nm =
      if (names.filter (fun n => n ≠ nm)).length = names.length ∧
          0 < names.length then
        ⟨some (docOf B A names), false, false⟩
      else if docOf B A (removeNames pd names nm) = docOf B A names then
        ⟨some (docOf B A names), false, false⟩
      else
        ⟨some (docOf B A (removeNames pd names nm)), true, false⟩ := by
  rw [remove_some_eq M pd cfg0 (docOf B A names) dctx nm
    (B, bodyOf names, A) (by decide) (by decide)
    (findBlock_docOf B A names hB1 hN)]
  show removeGo M cfg0 dctx (docOf B A names) B (bodyOf names) A
    (buildEntriesSkipping pd nm (bodyOf names))
    ((extractLinks (bodyOf names)).length) = _
  rw [buildEntriesSkipping_bodyOf pd nm names hN hND,
    extract_bodyOf names hN]
  have hmlen : ((names.filter (fun n => n ≠ nm)).map
      (fun n => (n, (pd n).getD 0))).length =
      (names.filter (fun n => n ≠ nm)).length := List.length_map _ _
  by_cases hC1 : (names.filter (fun n => n ≠ nm)).length = names.length ∧
      0 < names.length
  · rw [if_pos hC1]
    exact removeGo_noop M cfg0 dctx _ B (bodyOf names) A _ _
      ⟨by rw [hmlen]; exact hC1.1, hC1.2⟩
  · rw [if_neg hC1]
    have hnoop : ¬(((names.filter (fun n => n ≠ nm)).map
        (fun n => (n, (pd n).getD 0))).length = names.length ∧
        names.length > 0) := by
      intro hcon
      exact hC1 ⟨by rw [← hmlen]; exact hcon.1, hcon.2⟩
    have hmgood : ∀ p ∈ (names.filter (fun n => n ≠ nm)).map
        (fun n => (n, (pd n).getD 0)), ∀ x ∈ p.1, GoodChar x = true := by
      intro p hp
      obtain ⟨n2, hn2, heq⟩ := List.mem_map.mp hp
      rw [← heq]
      exact (GoodNameB_spec (hN n2 (List.mem_of_mem_filter hn2))).2.1
    have hNT : blockTextOf M cfg0 ((names.filter (fun n => n ≠ nm)).map
        (fun n => (n, (pd n).getD 0))) dctx =
        bodyOf (removeNames pd names nm) :=
      blockTextOf_good M _ dctx hmgood
    have hnorm1 : normalizeContent (docOf B A names) = docOf B A names :=
      normalize_docOf B A names hB2 hN hA1 hA2
    have hnorm2 : normalizeContent (docOf B A (removeNames pd names nm)) =
        docOf B A (removeNames pd names nm) :=
      normalize_docOf B A _ hB2 (removeNames_good pd names nm hN) hA1 hA2
    by_cases hC2 : docOf B A (removeNames pd names nm) = docOf B A names
    · rw [if_pos hC2]
      rw [removeGo_unchanged M cfg0 dctx (docOf B A names) B (bodyOf names) A
        _ _ hnoop
        (fun hne => hne (by rw [hNT, rewrittenDocOf_eq_docOf, hnorm1,
          hnorm2, hC2]))]
    · rw [if_neg hC2]
      rw [removeGo_changed M cfg0 dctx (docOf B A names) B (bodyOf names) A
        _ _ hnoop
        (by rw [hNT, rewrittenDocOf_eq_docOf, hnorm1, hnorm2]
            exact fun h => hC2 h.symm)]
      rw [hNT, rewrittenDocOf_eq_docOf, hnorm2]

theorem blockOf_cons_ne_nil (a : Str) (t : List Str) : blockOf (a :: t) ≠ [] := by
  unfold blockOf
  rw [if_neg (by simp)]
  simp

/-- Canonical documents with the same frame and good basenames are equal
only when their basename lists coincide. -/
theorem docOf_inj {B A : Str} {ns1 ns2 : List Str}
    (h1 : ∀ n ∈ ns1, GoodNameB n = true) (h2 : ∀ n ∈ ns2, GoodNameB n = true)
    (h : docOf B A ns1 = docOf B A ns2) : ns1 = ns2 := by
  unfold docOf at h
  have h3 := List.append_cancel_left h
  have h4 : blockOf ns1 ++ (cfg0.linksEndDelimiter ++ A) =
      blockOf ns2 ++ (cfg0.linksEndDelimiter ++ A) := by
    injection h3
  have h5 := List.append_cancel_right h4
  rcases ns1 with _ | ⟨a1, t1⟩ <;> rcases ns2 with _ | ⟨a2, t2⟩
  · rfl
  · exact absurd h5.symm (blockOf_cons_ne_nil a2 t2)
  · exact absurd h5 (blockOf_cons_ne_nil a1 t1)
  · have e1 : blockOf (a1 :: t1) = bodyOf (a1 :: t1) ++ ['\n'] := by
      unfold blockOf; rw [if_neg (by simp)]
    have e2 : blockOf (a2 :: t2) = bodyOf (a2 :: t2) ++ ['\n'] := by
      unfold blockOf; rw [if_neg (by simp)]
    rw [e1, e2] at h5
    have h6 := List.append_cancel_right h5
    calc a1 :: t1 = extractLinks (bodyOf (a1 :: t1)) :=
          (extract_bodyOf _ h1).symm
      _ = extractLinks (bodyOf (a2 :: t2)) := by rw [h6]
      _ = a2 :: t2 := extract_bodyOf _ h2

theorem mem_upsertNames (pd : Str → Option Int) (names : List Str) (b : Str)
    (d : Int) : b ∈ upsertNames pd names b d := by
  unfold upsertNames
  have hk : b ∈ (mapSet (names.map (fun n => (n, (pd n).getD 0))) b d).map
      Prod.fst := by
    rw [mapSet_keys]
    by_cases h : b ∈ (names.map (fun n => (n, (pd n).getD 0))).map Prod.fst
    · rw [if_pos h]; exact h
    · rw [if_neg h]; simp
  exact ((sortEntries_perm _).map Prod.fst).mem_iff.mpr hk

theorem filter_map_fst_entry (pd : Str → Option Int) (b : Str) :
    ∀ (l : List (Str × Int)),
    (∀ p ∈ l, ¬(p.1 = b) → p.2 = (pd p.1).getD 0) →
    ((l.map Prod.fst).filter (fun n => n ≠ b)).map
        (fun n => (n, (pd n).getD 0)) =
      l.filter (fun p => p.1 ≠ b) := by
  intro l
  induction l with
  | nil => intro _; rfl
  | cons p ps ih =>
    intro hv
    simp only [List.map_cons]
    by_cases hpb : p.1 = b
    · rw [List.filter_cons_of_neg (by simp [hpb]),
        List.filter_cons_of_neg (by simp [hpb])]
      exact ih (fun q hq => hv q (by simp [hq]))
    · rw [List.filter_cons_of_pos (by simp [hpb]),
        List.filter_cons_of_pos (by simp [hpb])]
      simp only [List.map_cons]
      rw [ih (fun q hq => hv q (by simp [hq]))]
      have hval := hv p (by simp) hpb
      rw [show ((p.1, (pd p.1).getD 0) : Str × Int) = p from
        Prod.ext rfl hval.symm]

/-- C5 (amended): on a canonical document whose region holds pairwise
distinct, date-ordered, round-trippable basenames — non-empty, of characters
the extraction regex passes through, not ending in `.md` — upserting an
absent basename and then removing it restores the entire document, and hence
the managed region, byte for byte; the upsert itself reports "changed". -/
theorem upsert_then_remove_restores (M : MomentOps) (pd : Str → Option Int)
    (B A : Str) (names : List Str) (d : Int) (b : Str)
    (hB1 : ∀ c ∈ B, c ≠ '<') (hB2 : ∀ c ∈ B, c ≠ '\r')
    (hHead : hasSub (str "# Weekly Log") B = true)
    (hA1 : ∀ c ∈ A, c ≠ '\r') (hA2 : jsTrimEnd A ++ ['\n'] = A)
    (hN : ∀ n ∈ names, GoodNameB n = true) (hND : names.Nodup)
    (hsorted : (names.map (fun n => (n, (pd n).getD 0))).Pairwise
      (fun p q => p.2 ≤ q.2))
    (hb : GoodNameB b = true) (hbnot : ¬ b ∈ names) :
    (removeLinkFromWeeklyNote M pd cfg0
        (addOrUpdateLinkInWeeklyNote M pd cfg0 (some (docOf B A names)) d
          b).doc d b).doc = some (docOf B A names) ∧
    (addOrUpdateLinkInWeeklyNote M pd cfg0 (some (docOf B A names)) d
      b).ret = true := by
  have hm1 := upsert_docOf M pd B A names d b hB1 hB2 hHead hA1 hA2 hN hND hb
  have hns1good := upsertNames_good pd names b d hN hb
  have hns1nd := upsertNames_nodup pd names b d hND
  have hbin : b ∈ upsertNames pd names b d := mem_upsertNames pd names b d
  have hC1f : ¬(b ∈ names ∧ jsTrim (bodyOf names) =
      jsTrim (bodyOf (upsertNames pd names b d))) := fun h => hbnot h.1
  have hC2f : ¬(docOf B A (upsertNames pd names b d) = docOf B A names) := by
    intro h
    rw [docOf_inj hns1good hN h] at hbin
    exact hbnot hbin
  rw [hm1, if_neg hC1f, if_neg hC2f]
  refine ⟨?_, rfl⟩
  show (removeLinkFromWeeklyNote M pd cfg0
    (some (docOf B A (upsertNames pd names b d))) d b).doc = _
  have hflt : ((upsertNames pd names b d).filter (fun n => n ≠ b)).length <
      (upsertNames pd names b d).length :=
    List.length_filter_lt_length_iff_exists.mpr ⟨b, hbin, by simp⟩
  have hcond1 : ¬(((upsertNames pd names b d).filter
      (fun n => n ≠ b)).length = (upsertNames pd names b d).length ∧
      0 < (upsertNames pd names b d).length) := by
    intro h
    obtain ⟨h1, -⟩ := h
    omega
  have hrn : removeNames pd (upsertNames pd names b d) b = names := by
    unfold removeNames
    have hval : ∀ p ∈ sortEntries (mapSet (names.map
        (fun n => (n, (pd n).getD 0))) b d), ¬(p.1 = b) →
        p.2 = (pd p.1).getD 0 := by
      intro p hp hpb
      have hpm := (sortEntries_perm _).mem_iff.mp hp
      rcases mapSet_mem _ b d p hpm with h | h
      · exact absurd h.1 hpb
      · obtain ⟨n2, hn2, heq⟩ := List.mem_map.mp h.2
        rw [← heq]
    rw [show ((upsertNames pd names b d).filter (fun n => n ≠ b)).map
        (fun n => (n, (pd n).getD 0)) =
        (sortEntries (mapSet (names.map (fun n => (n, (pd n).getD 0))) b
          d)).filter (fun p => p.1 ≠ b) from filter_map_fst_entry pd b _ hval]
    rw [filter_sortEntries]
    rw [mapSet_fresh _ b d (by rw [map_fst_entry]; exact hbnot)]
    rw [List.filter_append]
    rw [List.filter_eq_self.mpr ?keys]
    case keys =>
      intro p hp
      obtain ⟨n2, hn2, heq⟩ := List.mem_map.mp hp
      rw [← heq]
      exact decide_eq_true (fun hc => hbnot (hc ▸ hn2))
    rw [show ([(b, d)] : List (Str × Int)).filter (fun p => p.1 ≠ b) = []
      from by simp]
    rw [List.append_nil]
    rw [sortEntries_of_pairwise _ hsorted,
      sortEntries_of_pairwise _ hsorted]
    exact map_fst_entry pd names
  have hm2 := remove_docOf M pd B A (upsertNames pd names b d) d b hB1 hB2
    hA1 hA2 hns1good hns1nd
  rw [hm2, if_neg hcond1, hrn]
  rw [if_neg ?hC2r]
  case hC2r =>
    intro h
    rw [docOf_inj hN hns1good h] at hbnot
    exact hbnot hbin

set_option maxRecDepth 4000 in
/-- Witness for the amended C5 at a concrete input: upserting `2025-05-12`
into the empty canonical region and removing it restores the document. -/
theorem upsert_then_remove_restores_witness :
    (∀ c ∈ str "# Weekly Log\n\n## Daily Notes\n\n", c ≠ '<') ∧
    (∀ c ∈ str "# Weekly Log\n\n## Daily Notes\n\n", c ≠ '\r') ∧
    hasSub (str "# Weekly Log") (str "# Weekly Log\n\n## Daily Notes\n\n")
      = true ∧
    (∀ c ∈ str "\n", c ≠ '\r') ∧
    jsTrimEnd (str "\n") ++ ['\n'] = str "\n" ∧
    GoodNameB b0 = true ∧ ¬ b0 ∈ ([] : List Str) ∧
    ((removeLinkFromWeeklyNote M0 pd0 cfg0
        (addOrUpdateLinkInWeeklyNote M0 pd0 cfg0
          (some (docOf (str "# Weekly Log\n\n## Daily Notes\n\n")
            (str "\n") [])) 1747008000000 b0).doc 1747008000000 b0).doc =
      some (docOf (str "# Weekly Log\n\n## Daily Notes\n\n") (str "\n") []) ∧
    (addOrUpdateLinkInWeeklyNote M0 pd0 cfg0
        (some (docOf (str "# Weekly Log\n\n## Daily Notes\n\n") (str "\n")
          [])) 1747008000000 b0).ret = true) :=
  ⟨by decide, by decide, by decide, by decide, by decide, by decide,
    by decide,
    upsert_then_remove_restores M0 pd0
      (str "# Weekly Log\n\n## Daily Notes\n\n") (str "\n") []
      1747008000000 b0 (by decide) (by decide) (by decide) (by decide)
      (by decide) (by decide) (by decide) (by decide) (by decide)
      (by decide)⟩

/-- C7 (amended): for any finite sequence of upserts of round-trippable
basenames — non-empty, of characters the extraction regex passes through,
not ending in `.md` — applied to a canonical document, the final document is
canonical and each basename appears at most once in its managed region. -/
theorem upsert_sequence_unique (M : MomentOps) (pd : Str → Option Int)
    (B A : Str) (ops : List (Int × Str)) (names0 : List Str)
    (hB1 : ∀ c ∈ B, c ≠ '<') (hB2 : ∀ c ∈ B, c ≠ '\r')
    (hHead : hasSub (str "# Weekly Log") B = true)
    (hA1 : ∀ c ∈ A, c ≠ '\r') (hA2 : jsTrimEnd A ++ ['\n'] = A)
    (hN0 : ∀ n ∈ names0, GoodNameB n = true) (hND0 : names0.Nodup)
    (hops : ∀ o ∈ ops, GoodNameB o.2 = true) :
    ∃ ns : List Str,
      ops.foldl (fun dc o =>
          (addOrUpdateLinkInWeeklyNote M pd cfg0 dc o.1 o.2).doc)
        (some (docOf B A names0)) = some (docOf B A ns) ∧
      ns.Nodup ∧
      findBlock cfg0.linksStartDelimiter cfg0.linksEndDelimiter
        (docOf B A ns) = some (B, bodyOf ns, A) ∧
      extractLinks (bodyOf ns) = ns := by
  revert hops
  revert hN0 hND0
  revert names0
  induction ops with
  | nil =>
    intro names0 hN0 hND0 _
    exact ⟨names0, rfl, hND0, findBlock_docOf B A names0 hB1 hN0,
      extract_bodyOf names0 hN0⟩
  | cons o ops2 ih =>
    intro names0 hN0 hND0 hops
    have hm := upsert_docOf M pd B A names0 o.1 o.2 hB1 hB2 hHead hA1 hA2
      hN0 hND0 (hops o (by simp))
    simp only [List.foldl_cons]
    rw [hm]
    by_cases h1 : o.2 ∈ names0 ∧ jsTrim (bodyOf names0) =
        jsTrim (bodyOf (upsertNames pd names0 o.2 o.1))
    · rw [if_pos h1]
      exact ih names0 hN0 hND0 (fun q hq => hops q (by simp [hq]))
    · rw [if_neg h1]
      by_cases h2 : docOf B A (upsertNames pd names0 o.2 o.1) =
          docOf B A names0
      · rw [if_pos h2]
        exact ih names0 hN0 hND0 (fun q hq => hops q (by simp [hq]))
      · rw [if_neg h2]
        exact ih (upsertNames pd names0 o.2 o.1)
          (upsertNames_good pd names0 o.2 o.1 hN0 (hops o (by simp)))
          (upsertNames_nodup pd names0 o.2 o.1 hND0)
          (fun q hq => hops q (by simp [hq]))

set_option maxRecDepth 4000 in
/-- Witness for the amended C7 at a concrete input: two upserts into the
empty canonical region leave a region with pairwise distinct basenames. -/
theorem upsert_sequence_unique_witness :
    (∀ c ∈ str "# Weekly Log\n\n## Daily Notes\n\n", c ≠ '<') ∧
    (∀ c ∈ str "# Weekly Log\n\n## Daily Notes\n\n", c ≠ '\r') ∧
    hasSub (str "# Weekly Log") (str "# Weekly Log\n\n## Daily Notes\n\n")
      = true ∧
    (∀ c ∈ str "\n", c ≠ '\r') ∧
    jsTrimEnd (str "\n") ++ ['\n'] = str "\n" ∧
    (∀ o ∈ ([(1747008000000, b0), (1747008000000, b0),
        (1747094400000, str "2025-05-13")] : List (Int × Str)),
      GoodNameB o.2 = true) ∧
    (∃ ns : List Str,
      ([(1747008000000, b0), (1747008000000, b0),
          (1747094400000, str "2025-05-13")] : List (Int × Str)).foldl
          (fun dc o =>
            (addOrUpdateLinkInWeeklyNote M0 pd0 cfg0 dc o.1 o.2).doc)
        (some (docOf (str "# Weekly Log\n\n## Daily Notes\n\n") (str "\n")
          [])) = some (docOf (str "# Weekly Log\n\n## Daily Notes\n\n")
            (str "\n") ns) ∧
      ns.Nodup ∧
      findBlock cfg0.linksStartDelimiter cfg0.linksEndDelimiter
        (docOf (str "# Weekly Log\n\n## Daily Notes\n\n") (str "\n") ns) =
        some (str "# Weekly Log\n\n## Daily Notes\n\n", bodyOf ns,
          str "\n") ∧
      extractLinks (bodyOf ns) = ns) :=
  ⟨by decide, by decide, by decide, by decide, by decide, by decide,
    upsert_sequence_unique M0 pd0
      (str "# Weekly Log\n\n## Daily Notes\n\n") (str "\n")
      [(1747008000000, b0), (1747008000000, b0),
        (1747094400000, str "2025-05-13")] []
      (by decide) (by decide) (by decide) (by decide) (by decide)
      (by decide) (by decide) (by decide)⟩


theorem mapSet_vals (pd : Str → Option Int) (m : List (Str × Int)) (k : Str)
    (hm : ∀ p ∈ m, p.2 = (pd p.1).getD 0) :
    ∀ p ∈ mapSet m k ((pd k).getD 0), p.2 = (pd p.1).getD 0 := by
  intro p hp
  rcases mapSet_mem m k ((pd k).getD 0) p hp with h | h
  · rw [h.2, h.1]
  · exact hm p h.2

theorem mapSet_vals_except (pd : Str → Option Int) (m : List (Str × Int))
    (name : Str) (d : Int) (hm : ∀ p ∈ m, p.2 = (pd p.1).getD 0) :
    ∀ p ∈ mapSet m name d, pd p.1 = none → p.1 ≠ name → p.2 = 0 := by
  intro p hp hnone hne
  rcases mapSet_mem m name d p hp with h | h
  · exact absurd h.1 hne
  · rw [hm p h.2, hnone]
    rfl

/-- Every entry the Upsert collection loop produces carries its re-parsed
date or the epoch sentinel. -/
theorem buildEntries_vals (pd : Str → Option Int) (body : Str) :
    ∀ p ∈ buildEntries pd body, p.2 = (pd p.1).getD 0 := by
  unfold buildEntries
  have haux : ∀ (l : List Str) (acc : List (Str × Int)),
      (∀ p ∈ acc, p.2 = (pd p.1).getD 0) →
      ∀ p ∈ l.foldl (fun m b => mapSet m b ((pd b).getD 0)) acc,
        p.2 = (pd p.1).getD 0 := by
    intro l
    induction l with
    | nil => intro acc hacc p hp; exact hacc p hp
    | cons x xs ih =>
      intro acc hacc
      exact ih (mapSet acc x ((pd x).getD 0)) (mapSet_vals pd acc x hacc)
  exact haux (extractLinks body) [] (by simp)

/-- Every entry the Remove collection loop keeps carries its re-parsed date
or the epoch sentinel. -/
theorem buildEntriesSkipping_vals (pd : Str → Option Int) (nm body : Str) :
    ∀ p ∈ buildEntriesSkipping pd nm body, p.2 = (pd p.1).getD 0 := by
  unfold buildEntriesSkipping
  have haux : ∀ (l : List Str) (acc : List (Str × Int)),
      (∀ p ∈ acc, p.2 = (pd p.1).getD 0) →
      ∀ p ∈ l.foldl
          (fun m b => if b = nm then m else mapSet m b ((pd b).getD 0)) acc,
        p.2 = (pd p.1).getD 0 := by
    intro l
    induction l with
    | nil => intro acc hacc p hp; exact hacc p hp
    | cons x xs ih =>
      intro acc hacc
      by_cases hx : x = nm
      · simp only [List.foldl_cons, if_pos hx]
        exact ih acc hacc
      · simp only [List.foldl_cons, if_neg hx]
        exact ih (mapSet acc x ((pd x).getD 0)) (mapSet_vals pd acc x hacc)
  exact haux (extractLinks body) [] (by simp)

/-- In a sorted entry list every index with a sentinel-or-earlier date
precedes every index with a post-epoch date. -/
theorem sortEntries_index_mono (m : List (Str × Int)) :
    ∀ i j : Fin (sortEntries m).length, ((sortEntries m).get i).2 ≤ 0 →
      0 < ((sortEntries m).get j).2 → i < j := by
  intro i j hi hj
  have hget := List.pairwise_iff_get.mp (sortEntries_pairwise m)
  rcases lt_trichotomy i j with h | h | h
  · exact h
  · exfalso
    rw [h] at hi
    omega
  · exfalso
    have := hget j i h
    omega

/-- C3 as amended, for both operations: the entry list rendered back after
parsing a region and upserting `name` with date `d`, and the survivor list
rendered back after removing `name`, are each non-decreasing in the
resolved dates; a surviving basename that does not parse resolves to the
epoch sentinel `0`, so in both lists every sentinel-or-earlier index
precedes every post-epoch index — an entry with a pre-epoch (negative)
date sorts before the sentinel, not after it. -/
theorem region_sort_invariants (pd : Str → Option Int) (body name : Str)
    (d : Int) :
    ((sortEntries (mapSet (buildEntries pd body) name d)).Pairwise
      (fun a b => a.2 ≤ b.2) ∧
    (∀ p ∈ sortEntries (mapSet (buildEntries pd body) name d),
      pd p.1 = none → p.1 ≠ name → p.2 = 0) ∧
    (∀ i j : Fin (sortEntries (mapSet (buildEntries pd body) name d)).length,
      ((sortEntries (mapSet (buildEntries pd body) name d)).get i).2 ≤ 0 →
      0 < ((sortEntries (mapSet (buildEntries pd body) name d)).get j).2 →
      i < j)) ∧
    ((sortEntries (buildEntriesSkipping pd name body)).Pairwise
      (fun a b => a.2 ≤ b.2) ∧
    (∀ p ∈ sortEntries (buildEntriesSkipping pd name body),
      pd p.1 = none → p.2 = 0) ∧
    (∀ i j : Fin (sortEntries (buildEntriesSkipping pd name body)).length,
      ((sortEntries (buildEntriesSkipping pd name body)).get i).2 ≤ 0 →
      0 < ((sortEntries (buildEntriesSkipping pd name body)).get j).2 →
      i < j)) := by
  refine ⟨⟨sortEntries_pairwise _, ?_, sortEntries_index_mono _⟩,
    ⟨sortEntries_pairwise _, ?_, sortEntries_index_mono _⟩⟩
  · intro p hp
    exact mapSet_vals_except pd (buildEntries pd body) name d
      (buildEntries_vals pd body) p ((sortEntries_perm _).mem_iff.mp hp)
  · intro p hp hnone
    rw [buildEntriesSkipping_vals pd name body p
      ((sortEntries_perm _).mem_iff.mp hp), hnone]
    rfl


/-!
### Claim C6
-/

/-- C6: the engine recognizes at most one managed region and never creates a
second one.  First: a start delimiter with no end delimiter occurring after
it yields no region at all (`findBlock` returns `none`).  Second: when a
region is found, the document splits as `before ++ START ++ (newline?) ++
body ++ (newline?) ++ END ++ after`, where `before` contains no start
delimiter (the first one was taken) and `body` contains no end delimiter
(the first one after the start was taken) — only this first pair is
rewritten.  Third: when no region exists, the upsert path inserts exactly
one new `START … END` pair: the resulting document is the normalization of
the base text — the original document after at most the permitted heading
prepend and section-heading append — split at a single point with exactly
one `START (newline) renderedText (newline?) END newline` block between the
two halves; when the write is skipped, the unchanged document already
normalizes to that same single-pair form. -/
theorem single_region_authority :
    (∀ START END raw bf rest : Str, END ≠ [] →
      splitFirst START raw = some (bf, rest) → hasSub END rest = false →
      findBlock START END raw = none) ∧
    (∀ START END raw bf body af : Str, START ≠ [] → END ≠ [] →
      findBlock START END raw = some (bf, body, af) →
      ∃ d1 d2 : Str, (d1 = [] ∨ d1 = ['\n']) ∧ (d2 = [] ∨ d2 = ['\n']) ∧
        raw = bf ++ START ++ d1 ++ body ++ d2 ++ END ++ af ∧
        hasSub START bf = false ∧ hasSub END body = false) ∧
    (∀ (M : MomentOps) (pd : Str → Option Int) (s : Settings) (raw : Str)
        (d : Int) (b : Str),
      s.linksStartDelimiter.isEmpty = false →
      s.linksEndDelimiter.isEmpty = false →
      findBlock s.linksStartDelimiter s.linksEndDelimiter raw = none →
      ∃ base pre post nl n1 : Str,
        (base = raw ∨ base = mainHeadingOf M s d ++ str "\n" ++ raw ∨
         base = sectionAppendText s raw ∨
         base = sectionAppendText s (mainHeadingOf M s d ++ str "\n" ++ raw)) ∧
        pre ++ post = base ∧
        (nl = [] ∨ nl = ['\n']) ∧ (n1 = [] ∨ n1 = ['\n']) ∧
        ((addOrUpdateLinkInWeeklyNote M pd s (some raw) d b).doc =
          some (normalizeContent (pre ++ nl ++ s.linksStartDelimiter ++ '\n' ::
            (blockTextOf M s (mapSet [] b d) d ++ n1 ++
              (s.linksEndDelimiter ++ '\n' :: post)))) ∨
         ((addOrUpdateLinkInWeeklyNote M pd s (some raw) d b).doc = some raw ∧
          normalizeContent raw =
            normalizeContent (pre ++ nl ++ s.linksStartDelimiter ++ '\n' ::
              (blockTextOf M s (mapSet [] b d) d ++ n1 ++
                (s.linksEndDelimiter ++ '\n' :: post)))))) :=
  ⟨fun _ END _ _ _ hE hsp hno => findBlock_none_of_noEnd hE hsp hno,
   fun _ _ _ _ _ _ hS hE h => findBlock_parts hS hE h,
   fun M pd s raw d b hS hE hfb => upsert_noBlock_structure M pd s raw d b hS hE hfb⟩

set_option maxRecDepth 4000 in
/-- Witness for C6: the three parts applied at concrete documents — a
document whose start delimiter has no end delimiter after it, the reconciled
document `doc01`, and an upsert into a document with no region. -/
theorem single_region_authority_witness :
    findBlock (str "<S>") (str "<E>") (str "a\n<S>\nb") = none ∧
    (∃ d1 d2 : Str, (d1 = [] ∨ d1 = ['\n']) ∧ (d2 = [] ∨ d2 = ['\n']) ∧
      doc01 = str "# Weekly Log\n\n## Daily Notes\n\n" ++ cfg0.linksStartDelimiter
        ++ d1 ++ str "- ![[2025-05-12]]" ++ d2 ++ cfg0.linksEndDelimiter ++ str "\n" ∧
      hasSub cfg0.linksStartDelimiter (str "# Weekly Log\n\n## Daily Notes\n\n") = false ∧
      hasSub cfg0.linksEndDelimiter (str "- ![[2025-05-12]]") = false) ∧
    (∃ base pre post nl n1 : Str,
      (base = str "# Weekly Log\nfree text\n" ∨
       base = mainHeadingOf M0 cfg0 1747008000000 ++ str "\n" ++
         str "# Weekly Log\nfree text\n" ∨
       base = sectionAppendText cfg0 (str "# Weekly Log\nfree text\n") ∨
       base = sectionAppendText cfg0 (mainHeadingOf M0 cfg0 1747008000000 ++
         str "\n" ++ str "# Weekly Log\nfree text\n")) ∧
      pre ++ post = base ∧
      (nl = [] ∨ nl = ['\n']) ∧ (n1 = [] ∨ n1 = ['\n']) ∧
      ((addOrUpdateLinkInWeeklyNote M0 pd0 cfg0
          (some (str "# Weekly Log\nfree text\n")) 1747008000000 b0).doc =
        some (normalizeContent (pre ++ nl ++ cfg0.linksStartDelimiter ++ '\n' ::
          (blockTextOf M0 cfg0 (mapSet [] b0 1747008000000) 1747008000000 ++
            n1 ++ (cfg0.linksEndDelimiter ++ '\n' :: post)))) ∨
       ((addOrUpdateLinkInWeeklyNote M0 pd0 cfg0
          (some (str "# Weekly Log\nfree text\n")) 1747008000000 b0).doc =
          some (str "# Weekly Log\nfree text\n") ∧
        normalizeContent (str "# Weekly Log\nfree text\n") =
          normalizeContent (pre ++ nl ++ cfg0.linksStartDelimiter ++ '\n' ::
            (blockTextOf M0 cfg0 (mapSet [] b0 1747008000000) 1747008000000 ++
              n1 ++ (cfg0.linksEndDelimiter ++ '\n' :: post)))))) :=
  ⟨single_region_authority.1 (str "<S>") (str "<E>") (str "a\n<S>\nb")
      (str "a\n") (str "\nb") (by decide) (by decide) (by decide),
   single_region_authority.2.1 cfg0.linksStartDelimiter cfg0.linksEndDelimiter
      doc01 (str "# Weekly Log\n\n## Daily Notes\n\n") (str "- ![[2025-05-12]]")
      (str "\n") (by decide) (by decide) (by decide),
   single_region_authority.2.2 M0 pd0 cfg0 (str "# Weekly Log\nfree text\n")
      1747008000000 b0 rfl rfl (by decide)⟩

end WeekLinker
